import Mathlib

/-!
Verification of the goal-getter repository's core logic: the two
`build_tree` implementations (`src/api/db.py` and `src/app/db.py`), the
goal repository operations (`create_goal`, `update_goal`, `delete_goal`,
`get_all_goals`), the single-goal lookup and the flattening projection of
`src/api/main.py`.

Modelling conventions:
* Identifiers are modelled in their canonical string form (the Python code
  applies `str(...)` to every id before comparing); Python truthiness of a
  parent reference (`if pid`) is modelled by `truthy` (None and the empty
  string are falsy).
* A Python dict is modelled as an association list with last-value-wins /
  first-position-kept insertion (`dictInsert`), matching dict comprehension
  semantics; iteration order over `.values()` is the list order.
* The mutable shared-reference tree (`by_id[pid]["children"].append(r)`)
  is modelled by a `Forest`: the list of root ids plus a map from an id to
  its list of child ids in append order.  Together with the id-keyed row
  map this determines the Python structure exactly.
-/

namespace GoalGetter

/-- A stored goal row, with ids in canonical string form.  Fields not
relevant to the verified claims (kind, priority, timestamps, ...) are
omitted; they are carried through the operations unchanged in the same way
as `description`. -/
structure Row where
  id : String
  user_id : String
  title : String
  description : Option String
  status : String
  parent_id : Option String
  deriving Repr, DecidableEq

/-- Python truthiness of an optional string value: `None` and `""` are
falsy, everything else truthy. -/
def truthy : Option String → Bool
  | none => false
  | some s => s ≠ ""

/-- Does the dict contain the key? (`k in by_id`) -/
def containsKey (m : List (String × Row)) (k : String) : Bool :=
  m.any (fun p => p.1 = k)

/-- Dict lookup (`by_id.get(k)`). -/
def lookupKey (m : List (String × Row)) (k : String) : Option Row :=
  (m.find? (fun p => p.1 = k)).map Prod.snd

/-- The keys of the dict, in insertion order. -/
def keysOf (m : List (String × Row)) : List String :=
  m.map Prod.fst

/-- Python dict insertion: an existing key keeps its position and gets the
new value, a new key is appended. -/
def dictInsert (m : List (String × Row)) (k : String) (v : Row) : List (String × Row) :=
  if containsKey m k then m.map (fun p => if p.1 = k then (p.1, v) else p)
  else m ++ [(k, v)]

/-- The dict comprehension in both `build_tree` versions:
`by_id = \x7b str(r["id"]): \x7b**r, "children": []\x7d for r in rows\x7d`.
The attached empty children list is tracked separately in `Forest`. -/
def byId (rows : List Row) : List (String × Row) :=
  rows.foldl (fun m r => dictInsert m r.id r) []

/-- The parent reference actually used by the tree builders for a row:
`some p` exactly when the row's `parent_id` is truthy and `str(pid)` is a
key of `by_id` (`pid and str(pid) in by_id`), else `none`. -/
def pidRef (m : List (String × Row)) (r : Row) : Option String :=
  match r.parent_id with
  | none => none
  | some p => if p ≠ "" ∧ containsKey m p then some p else none

/-- The parent reference of the row stored under key `k`, as a step
relation on keys of `by_id`. -/
def pidKey (m : List (String × Row)) (k : String) : Option String :=
  match lookupKey m k with
  | none => none
  | some r => pidRef m r

/-- One parent-step between keys of `by_id`. -/
def Step (m : List (String × Row)) (a b : String) : Prop :=
  pidKey m a = some b

instance (m : List (String × Row)) (a b : String) : Decidable (Step m a b) := by
  unfold Step; infer_instance

/-- The result of a tree builder: root ids in append order, plus each id's
children in append order.  Nodes are identified by their `by_id` key. -/
structure Forest where
  roots : List String
  children : String → List String

/-- Append a node to the root list. -/
def addRoot (f : Forest) (k : String) : Forest :=
  { f with roots := f.roots ++ [k] }

/-- Append a node to a parent's children list. -/
def addChild (f : Forest) (p k : String) : Forest :=
  { f with children := fun i => if i = p then f.children i ++ [k] else f.children i }

/-- Generic single pass over `by_id.values()` driven by a placement
function: `none` sends the node to the root list, `some p` appends it to
`p`'s children.  Both builders' final loops are instances of this. -/
def buildOf (pl : String → Row → Option String) (m : List (String × Row)) : Forest :=
  m.foldl
    (fun acc kr =>
      match pl kr.1 kr.2 with
      | some p => addChild acc p kr.1
      | none => addRoot acc kr.1)
    ⟨[], fun _ => []⟩

namespace Api

/-- The fold body of `build_tree` in `src/api/db.py` (lines 56-66): a node
whose `parent_id` is truthy and present in `by_id` is appended to that
parent's children, every other node is appended to the root list. -/
def step (m : List (String × Row)) (acc : Forest) (kr : String × Row) : Forest :=
  match kr.2.parent_id with
  | some p => if p ≠ "" ∧ containsKey m p then addChild acc p kr.1 else addRoot acc kr.1
  | none => addRoot acc kr.1

/-- `build_tree` from `src/api/db.py`: no cycle handling, one placement
pass over `by_id.values()`. -/
def build_tree (rows : List Row) : Forest :=
  let m := byId rows
  m.foldl (step m) ⟨[], fun _ => []⟩

end Api

namespace App

/-- State of the cycle-detection phase of `build_tree` in
`src/app/db.py`: the `visited` and `in_cycle` sets, modelled as lists. -/
structure DetSt where
  visited : List String
  in_cycle : List String
  deriving Repr, DecidableEq

/-- `detect_cycle` from `src/app/db.py` (lines 34-53).  The Python
recursion is bounded because every recursive call first adds an unvisited
key to `visited`; the `fuel` argument makes this explicit, and
`detect_cycle_fuel_irrel` below shows any fuel of at least
(number of unvisited keys + 1) gives the same result, so the fuel-0 branch
is never taken in `build_tree`.  The `path` set is passed functionally:
on a `False` return Python removes the node again, and after a `True`
return the set is discarded, so the caller's `path` is unchanged either
way. -/
def detect_cycle (m : List (String × Row)) :
    Nat → String → List String → DetSt → Bool × DetSt
  | 0, _, _, st => (false, st)
  | fuel + 1, node_id, path, st =>
    if node_id ∈ path then (true, st)
    else if node_id ∈ st.visited then (false, st)
    else
      let st1 : DetSt := ⟨node_id :: st.visited, st.in_cycle⟩
      match lookupKey m node_id with
      | none => (false, st1)
      | some node =>
        match node.parent_id with
        | none => (false, st1)
        | some p =>
          if p ≠ "" ∧ containsKey m p then
            let res := detect_cycle m fuel p (node_id :: path) st1
            if res.1 then (true, ⟨res.2.visited, node_id :: res.2.in_cycle⟩)
            else (false, res.2)
          else (false, st1)

/-- The detection loop of `build_tree` in `src/app/db.py` (lines 56-58):
`for node_id in by_id: if node_id not in visited: detect_cycle(node_id, set())`. -/
def detect_loop (m : List (String × Row)) (fuel : Nat) : DetSt :=
  (keysOf m).foldl
    (fun st k => if k ∈ st.visited then st else (detect_cycle m fuel k [] st).2)
    ⟨[], []⟩

/-- The fold body of the final loop of `build_tree` in `src/app/db.py`
(lines 61-71): a cycle-marked node becomes a root; otherwise a node whose
parent is truthy, present and not cycle-marked nests under the parent;
everything else becomes a root. -/
def step (m : List (String × Row)) (ic : List String) (acc : Forest) (kr : String × Row) :
    Forest :=
  if kr.1 ∈ ic then addRoot acc kr.1
  else
    match kr.2.parent_id with
    | some p =>
      if p ≠ "" ∧ containsKey m p ∧ p ∉ ic then addChild acc p kr.1 else addRoot acc kr.1
    | none => addRoot acc kr.1

/-- `build_tree` from `src/app/db.py`: cycle detection followed by the
placement pass.  The fuel `m.length + 1` dominates the number of keys. -/
def build_tree (rows : List Row) : Forest :=
  let m := byId rows
  let st := detect_loop m (m.length + 1)
  m.foldl (step m st.in_cycle) ⟨[], fun _ => []⟩

/-- `build_tree` run with surplus detection fuel; used to state that the
detection recursion terminates within the bounded depth. -/
def build_tree_fuel (extra : Nat) (rows : List Row) : Forest :=
  let m := byId rows
  let st := detect_loop m (m.length + 1 + extra)
  m.foldl (step m st.in_cycle) ⟨[], fun _ => []⟩

end App

/-- A partial update as parsed from the request body (`GoalUpdate` in
`src/api/main.py`).  Pydantic parses an explicitly-null JSON field to
`None`, which is the same value an absent field gets, so `none` models
both "field not sent" and "field sent as null". -/
structure GoalUpdate where
  title : Option String
  description : Option String
  status : Option String
  parent_id : Option String
  deriving Repr, DecidableEq

/-- Modelled from the spec: the Record Store Adapter's keyed partial
update (§2, `update(table, id, patch) -> row|none`) applies exactly the
supplied fields of the patch to a row and leaves every other field of the
row unchanged.  A patch field that is `none` is absent from the update
dictionary and therefore not applied. -/
def applyPatch (r : Row) (u : GoalUpdate) : Row :=
  { r with
    title := u.title.getD r.title
    description := match u.description with | some d => some d | none => r.description
    status := u.status.getD r.status
    parent_id := match u.parent_id with | some p => some p | none => r.parent_id }

namespace Api

/-- `get_all_goals` from `src/api/db.py` (lines 69-88): select the rows
whose `user_id` equals the authenticated user's id, then build the tree. -/
def get_all_goals (store : List Row) (user_id : String) : Forest :=
  build_tree (store.filter (fun r => r.user_id = user_id))

/-- `create_goal` from `src/api/db.py` (lines 91-130): build the insert
payload — `user_id` and `title` always, `parent_id` only when truthy,
optional fields only when not `None` — and insert it.  No validation of
the parent reference is performed.  `new_id` stands for the id generated
by the store on insert; an omitted `status` takes the store's column
default `todo` (spec §3). -/
def create_goal (store : List Row) (new_id : String) (user_id : String) (title : String)
    (parent_id : Option String) (description : Option String) (status : Option String) :
    List Row × Row :=
  let payload : Row :=
    { id := new_id
      user_id := user_id
      title := title
      description := description
      status := status.getD "todo"
      parent_id := if truthy parent_id then parent_id else none }
  (store ++ [payload], payload)

/-- `update_goal` from `src/api/db.py` (lines 133-157):
`supabase.table("goals").update(updates).eq("id", goal_id)` — the update
is applied to every row whose id matches, with no `user_id` scoping and no
validation of `parent_id`; the first updated row (or none) is returned. -/
def update_goal (store : List Row) (goal_id : String) (u : GoalUpdate) :
    List Row × Option Row :=
  (store.map (fun r => if r.id = goal_id then applyPatch r u else r),
   ((store.filter (fun r => r.id = goal_id)).map (fun r => applyPatch r u)).head?)

/-- `delete_goal` from `src/api/db.py` (lines 160-172):
`delete().eq("id", goal_id)` removes exactly the rows whose id matches and
reports whether any row was removed. -/
def delete_goal (store : List Row) (goal_id : String) : List Row × Bool :=
  (store.filter (fun r => ¬ r.id = goal_id), store.any (fun r => r.id = goal_id))

end Api

namespace Main

/-- The update dictionary built by the PATCH endpoint in
`src/api/main.py` (lines 249-269): each `(field, value)` pair of
`field_mappings` is added to `updates` only when the value is not `None`,
so a `none` field stays absent from the dictionary.  `parent_id` passes
through `str(...)` (identity on canonical ids, and a UUID object is always
truthy); `status`/`kind` pass through `.value`. -/
def updates_of (p : GoalUpdate) : GoalUpdate :=
  { title := p.title
    description := p.description
    status := p.status
    parent_id := p.parent_id }

/-- The PATCH `/goals/{goal_id}` endpoint (`update_goal` in
`src/api/main.py`, lines 245-283): builds the update dictionary and calls
`db.update_goal`.  The authenticated user is not used to scope the update.
A `none` second component is the 404 Goal-not-found response. -/
def update_goal (store : List Row) (_user_id : String) (goal_id : String) (p : GoalUpdate) :
    List Row × Option Row :=
  Api.update_goal store goal_id (updates_of p)

/-- The POST `/goals` endpoint (`create_goal` in `src/api/main.py`, lines
205-242): forwards the authenticated user's id, the title and the
stringified `parent_id` plus the non-`None` optional fields to
`db.create_goal`. -/
def create_goal (store : List Row) (new_id : String) (user_id : String) (title : String)
    (parent_id : Option String) (description : Option String) (status : Option String) :
    List Row × Row :=
  Api.create_goal store new_id user_id title parent_id description status

/-- The recursive `_find` of the GET `/goals/{goal_id}` endpoint
(`src/api/main.py`, lines 190-197): scan the node list in order, return a
node whose id matches, otherwise search its children before the remaining
siblings.  Fuel-bounded; each recursion step passes a distinct node
placement, so any fuel above the node count is enough. -/
def find_goal (m : List (String × Row)) (f : Forest) :
    Nat → String → List String → Option Row
  | 0, _, _ => none
  | _ + 1, _, [] => none
  | fuel + 1, target, k :: rest =>
    if k = target then lookupKey m k
    else
      match find_goal m f fuel target (f.children k) with
      | some r => some r
      | none => find_goal m f fuel target rest

/-- The GET `/goals/{goal_id}` endpoint (`get_goal` in `src/api/main.py`,
lines 181-202): fetch the authenticated user's forest, then search it by
id.  A `none` result is the 404 Goal-not-found response. -/
def get_goal (store : List Row) (user_id goal_id : String) : Option Row :=
  let rows := store.filter (fun r => r.user_id = user_id)
  find_goal (byId rows) (Api.build_tree rows) (rows.length + 1) goal_id
    (Api.build_tree rows).roots

/-- A flattened visualization node (`TreeNode` in `src/api/main.py`);
`progress` is modelled as a rational (the Python floats 0.0, 0.5, 1.0 are
exact).  The constant `style`/`ui` fields are omitted. -/
structure TreeNode where
  id : String
  parent_id : Option String
  title : String
  progress : ℚ
  status : String
  deriving Repr, DecidableEq

/-- The dictionary `status_map` of `_flatten_tree`
(`src/api/main.py`, line 321): only the keys `todo`, `doing`, `done` are
mapped; `.get` on any other status falls back to the default. -/
def status_map (s : String) : Option String :=
  if s = "todo" then some "pending"
  else if s = "doing" then some "active"
  else if s = "done" then some "done"
  else none

/-- The node constructed by one iteration of `_flatten_tree`
(`src/api/main.py`, lines 320-339): progress is 1.0 for status `done`,
0.5 for status `doing`, else 0.0; status is looked up in `status_map` with
default `pending`. -/
def mk_node (parent : Option String) (r : Row) : TreeNode :=
  { id := r.id
    parent_id := parent
    title := r.title
    progress := if r.status = "done" then 1 else if r.status = "doing" then (1 : ℚ)/2 else 0
    status := (status_map r.status).getD "pending" }

/-- `_flatten_tree` (`src/api/main.py`, lines 318-345): pre-order
traversal emitting one node per goal, then recursing into its children
with the goal's id as the in-memory parent. -/
def flatten_tree (m : List (String × Row)) (f : Forest) :
    Nat → Option String → List String → List TreeNode
  | 0, _, _ => []
  | _ + 1, _, [] => []
  | fuel + 1, parent, k :: rest =>
    match lookupKey m k with
    | none => flatten_tree m f fuel parent rest
    | some r =>
      mk_node parent r ::
        (flatten_tree m f fuel (some k) (f.children k) ++ flatten_tree m f fuel parent rest)

/-- The GET `/api/tree` endpoint (`get_tree` in `src/api/main.py`, lines
302-364), restricted to its node list: flatten the authenticated user's
forest starting from the roots with no parent. -/
def get_tree (store : List Row) (user_id : String) : List TreeNode :=
  let rows := store.filter (fun r => r.user_id = user_id)
  flatten_tree (byId rows) (Api.build_tree rows) (rows.length + 1) none
    (Api.build_tree rows).roots

end Main

/-- A node of the result structure is reachable when it is a root or a
child (at any depth) of a reachable node: these are exactly the nodes an
API consumer sees when serializing the returned root list. -/
inductive Reach (f : Forest) : String → Prop
  | root {k : String} : k ∈ f.roots → Reach f k
  | child {p k : String} : Reach f p → k ∈ f.children p → Reach f k

/-- The step of the generic placement fold `buildOf`. -/
def stepOf (pl : String → Row → Option String) (acc : Forest) (kr : String × Row) : Forest :=
  match pl kr.1 kr.2 with
  | some p => addChild acc p kr.1
  | none => addRoot acc kr.1

/-- The placement function of the `src/app/db.py` builder's final loop:
root for cycle-marked nodes, parent for nodes with a truthy, present,
non-cycle-marked parent, root otherwise. -/
def appPlace (m : List (String × Row)) (ic : List String) (k : String) (r : Row) :
    Option String :=
  if k ∈ ic then none
  else
    match r.parent_id with
    | some p => if p ≠ "" ∧ containsKey m p ∧ p ∉ ic then some p else none
    | none => none

/-- All placements made by a forest over the key list `ks`: the root list
together with every child list.  When this is a permutation of `ks`, every
node has been placed exactly once. -/
def occ (f : Forest) (ks : List String) : List String :=
  f.roots ++ ks.flatMap f.children

/-- The shape of the `path` argument during `detect_cycle`'s recursion:
`path = [a0, a1, ...]` where `a0` steps to the current node, `a1` steps to
`a0`, and so on — the currently explored parent chain. -/
def ChainPath (m : List (String × Row)) : List String → String → Prop
  | [], _ => True
  | a :: rest, n => Step m a n ∧ ChainPath m rest a

/-- `j`-fold iteration of the parent step on keys; `none` once the chain
leaves the key set (no parent, empty parent, or dangling parent). -/
def iterK (m : List (String × Row)) : Nat → String → Option String
  | 0, n => some n
  | j + 1, n =>
    match pidKey m n with
    | none => none
    | some p => iterK m j p

/-- The parent chain from `n` terminates: some iterate falls off the key
set.  Since the step is functional, the only alternative is that the chain
eventually enters a cycle. -/
def Terminating (m : List (String × Row)) (n : String) : Prop :=
  ∃ j, iterK m j n = none

/-- `x` lies on a (simple) parent-id cycle: a duplicate-free chain of
parent steps leads from `x` back to `x`.  A self-parenting node is the
case `l = []`. -/
def OnCycle (m : List (String × Row)) (x : String) : Prop :=
  ∃ l : List String, List.Chain (Step m) x (l ++ [x]) ∧ (x :: l).Nodup

/-- The number of keys not yet visited; the measure that bounds
`detect_cycle`'s recursion depth. -/
def unvisitedCount (m : List (String × Row)) (st : App.DetSt) : Nat :=
  ((keysOf m).filter (fun k => k ∉ st.visited)).length

/-- In a forest with an empty root list nothing is reachable. -/
theorem reach_nil_roots (f : Forest) (hf : f.roots = []) (k : String) : ¬ Reach f k := by
  intro h
  induction h with
  | root hk => rw [hf] at hk; cases hk
  | child _ _ ih => exact ih

theorem containsKey_iff_mem (m : List (String × Row)) (k : String) :
    containsKey m k = true ↔ k ∈ keysOf m := by
  unfold containsKey keysOf
  rw [List.any_eq_true]
  constructor
  · rintro ⟨p, hp, he⟩
    exact (of_decide_eq_true he) ▸ List.mem_map_of_mem Prod.fst hp
  · intro hk
    rcases List.mem_map.mp hk with ⟨p, hp, he⟩
    exact ⟨p, hp, decide_eq_true he⟩

theorem keysOf_overwrite (m : List (String × Row)) (i : String) (v : Row) :
    keysOf (m.map (fun p => if p.1 = i then (p.1, v) else p)) = keysOf m := by
  induction m with
  | nil => rfl
  | cons p t ih =>
      simp only [keysOf, List.map_cons] at ih ⊢
      refine congrArg₂ List.cons ?_ ih
      split <;> rfl

theorem keysOf_dictInsert (m : List (String × Row)) (i : String) (v : Row) :
    keysOf (dictInsert m i v) =
      if containsKey m i then keysOf m else keysOf m ++ [i] := by
  unfold dictInsert
  by_cases h : containsKey m i
  · simp [h, keysOf_overwrite]
  · simp [h, keysOf]

theorem mem_keysOf_dictInsert (m : List (String × Row)) (i : String) (v : Row) (k : String) :
    k ∈ keysOf (dictInsert m i v) ↔ k ∈ keysOf m ∨ k = i := by
  rw [keysOf_dictInsert]
  by_cases h : containsKey m i
  · simp only [if_pos h]
    constructor
    · exact Or.inl
    · rintro (hk | rfl)
      · exact hk
      · exact (containsKey_iff_mem m k).mp h
  · simp [if_neg h]

theorem mem_keysOf_byId (rows : List Row) (k : String) :
    k ∈ keysOf (byId rows) ↔ k ∈ rows.map Row.id := by
  suffices h : ∀ m : List (String × Row),
      k ∈ keysOf (rows.foldl (fun m r => dictInsert m r.id r) m) ↔
        k ∈ keysOf m ∨ k ∈ rows.map Row.id by
    simpa [byId, keysOf] using h []
  induction rows with
  | nil => intro m; simp
  | cons r t ih =>
      intro m
      simp only [List.foldl_cons, ih, mem_keysOf_dictInsert, List.map_cons, List.mem_cons]
      tauto

theorem keysOf_byId_nodup (rows : List Row) : (keysOf (byId rows)).Nodup := by
  suffices h : ∀ m : List (String × Row), (keysOf m).Nodup →
      (keysOf (rows.foldl (fun m r => dictInsert m r.id r) m)).Nodup by
    exact h [] (by simp [keysOf])
  induction rows with
  | nil => intro m hm; exact hm
  | cons r t ih =>
      intro m hm
      simp only [List.foldl_cons]
      refine ih _ ?_
      rw [keysOf_dictInsert]
      by_cases h : containsKey m r.id
      · simpa [h] using hm
      · simp only [if_neg h]
        rw [List.nodup_append]
        refine ⟨hm, List.nodup_singleton _, ?_⟩
        intro x hx hx'
        rcases List.mem_singleton.mp hx' with rfl
        exact h ((containsKey_iff_mem m _).mpr hx)

theorem byId_eq_map (rows : List Row) (hnd : (rows.map Row.id).Nodup) :
    byId rows = rows.map (fun r => (r.id, r)) := by
  suffices h : ∀ (rows : List Row) (m : List (String × Row)),
      (∀ r ∈ rows, ¬ containsKey m r.id) → (rows.map Row.id).Nodup →
      rows.foldl (fun m r => dictInsert m r.id r) m = m ++ rows.map (fun r => (r.id, r)) by
    simpa using h rows [] (by simp [containsKey]) hnd
  intro rows
  induction rows with
  | nil => intro m _ _; simp
  | cons r t ih =>
      intro m hm hnd
      simp only [List.foldl_cons]
      have h1 : ¬ containsKey m r.id := hm r (by simp)
      have h2 : dictInsert m r.id r = m ++ [(r.id, r)] := by simp [dictInsert, h1]
      rw [h2, ih (m ++ [(r.id, r)]) ?_ (by simpa [List.map_cons] using hnd.of_cons)]
      · simp
      · intro r' hr'
        have hne : r'.id ≠ r.id := by
          intro he
          have : r.id ∈ t.map Row.id := he ▸ List.mem_map_of_mem Row.id hr'
          simp only [List.map_cons, List.nodup_cons] at hnd
          exact hnd.1 this
        have h3 : ¬ containsKey m r'.id := hm r' (List.mem_cons_of_mem _ hr')
        intro hc
        rcases (containsKey_iff_mem _ _).mp hc with hk
        rw [show keysOf (m ++ [(r.id, r)]) = keysOf m ++ [r.id] by
              simp [keysOf]] at hk
        rcases List.mem_append.mp hk with hk | hk
        · exact h3 ((containsKey_iff_mem _ _).mpr hk)
        · exact hne (List.mem_singleton.mp hk)

theorem lookup_byId (rows : List Row) (hnd : (rows.map Row.id).Nodup)
    (r : Row) (hr : r ∈ rows) : lookupKey (byId rows) r.id = some r := by
  rw [byId_eq_map rows hnd]
  induction rows with
  | nil => cases hr
  | cons r0 t ih =>
      rcases List.mem_cons.mp hr with rfl | hr'
      · simp [lookupKey, List.find?]
      · have hne : ¬ r0.id = r.id := by
          intro he
          have : r0.id ∈ t.map Row.id := he ▸ List.mem_map_of_mem Row.id hr'
          simp only [List.map_cons, List.nodup_cons] at hnd
          exact hnd.1 this
        simp only [List.map_cons, lookupKey, List.find?] at ih ⊢
        rw [show (decide (r0.id = r.id)) = false by simpa using hne]
        exact ih (by simpa [List.map_cons] using hnd.of_cons) hr'

theorem buildOf_eq_foldl (pl : String → Row → Option String) (m : List (String × Row)) :
    buildOf pl m = m.foldl (stepOf pl) ⟨[], fun _ => []⟩ := rfl

theorem stepOf_roots_sub (pl : String → Row → Option String) (acc : Forest)
    (kr : String × Row) : acc.roots ⊆ (stepOf pl acc kr).roots := by
  unfold stepOf
  cases pl kr.1 kr.2 with
  | none => exact List.subset_append_left _ _
  | some p => exact fun x hx => hx

theorem stepOf_children_sub (pl : String → Row → Option String) (acc : Forest)
    (kr : String × Row) (p : String) :
    acc.children p ⊆ (stepOf pl acc kr).children p := by
  unfold stepOf
  cases pl kr.1 kr.2 with
  | none => exact fun x hx => hx
  | some q =>
      simp only [addChild]
      split
      · exact List.subset_append_left _ _
      · exact fun x hx => hx

theorem foldl_stepOf_roots_sub (pl : String → Row → Option String) :
    ∀ (entries : List (String × Row)) (acc : Forest),
      acc.roots ⊆ (entries.foldl (stepOf pl) acc).roots := by
  intro entries
  induction entries with
  | nil => intro acc; exact fun x hx => hx
  | cons kr t ih =>
      intro acc
      exact (stepOf_roots_sub pl acc kr).trans (ih _)

theorem foldl_stepOf_children_sub (pl : String → Row → Option String) :
    ∀ (entries : List (String × Row)) (acc : Forest) (p : String),
      acc.children p ⊆ (entries.foldl (stepOf pl) acc).children p := by
  intro entries
  induction entries with
  | nil => intro acc p; exact fun x hx => hx
  | cons kr t ih =>
      intro acc p
      exact (stepOf_children_sub pl acc kr p).trans (ih _ _)

theorem foldl_stepOf_place (pl : String → Row → Option String) :
    ∀ (entries : List (String × Row)) (acc : Forest) (k : String) (r : Row),
      (k, r) ∈ entries →
      (pl k r = none → k ∈ (entries.foldl (stepOf pl) acc).roots) ∧
      (∀ p, pl k r = some p → k ∈ (entries.foldl (stepOf pl) acc).children p) := by
  intro entries
  induction entries with
  | nil => intro acc k r h; cases h
  | cons kr t ih =>
      intro acc k r h
      rcases List.mem_cons.mp h with heq | h
      · rcases heq with rfl
        constructor
        · intro hnone
          have hk : k ∈ (stepOf pl acc (k, r)).roots := by
            simp [stepOf, hnone, addRoot]
          exact foldl_stepOf_roots_sub pl t _ hk
        · intro p hp
          have hk : k ∈ (stepOf pl acc (k, r)).children p := by
            simp [stepOf, hp, addChild]
          exact foldl_stepOf_children_sub pl t _ p hk
      · exact ih _ k r h

theorem flatMap_congr_on (ks : List String) (f g : String → List String)
    (h : ∀ x ∈ ks, f x = g x) : ks.flatMap f = ks.flatMap g := by
  induction ks with
  | nil => rfl
  | cons x t ih =>
      simp only [List.flatMap_cons]
      rw [h x (by simp), ih (fun y hy => h y (List.mem_cons_of_mem _ hy))]

theorem occ_addRoot (f : Forest) (k : String) (ks : List String) :
    List.Perm (occ (addRoot f k) ks) (k :: occ f ks) := by
  simp only [occ, addRoot]
  refine List.perm_iff_count.mpr fun a => ?_
  simp only [List.count_append, List.count_cons, List.count_nil]
  omega

theorem occ_addChild (f : Forest) (p k : String) (ks : List String)
    (hp : p ∈ ks) (hnd : ks.Nodup) :
    List.Perm (occ (addChild f p k) ks) (k :: occ f ks) := by
  obtain ⟨s, t, rfl⟩ := List.append_of_mem hp
  have hdis := (List.nodup_append.mp hnd).2.2
  have hps : p ∉ s := fun hs => hdis hs (by simp)
  have hpt : p ∉ t := by
    have := (List.nodup_append.mp hnd).2.1
    simpa using (List.nodup_cons.mp this).1
  have hs : s.flatMap (addChild f p k).children = s.flatMap f.children :=
    flatMap_congr_on _ _ _ fun x hx => by
      simp [addChild]
      intro he
      exact absurd (he ▸ hx) hps
  have ht : t.flatMap (addChild f p k).children = t.flatMap f.children :=
    flatMap_congr_on _ _ _ fun x hx => by
      simp [addChild]
      intro he
      exact absurd (he ▸ hx) hpt
  have hcp : (addChild f p k).children p = f.children p ++ [k] := by simp [addChild]
  simp only [occ, addChild, List.flatMap_append, List.flatMap_cons] at *
  rw [hs, ht, hcp]
  refine List.perm_iff_count.mpr fun a => ?_
  simp only [List.count_append, List.count_cons, List.count_nil]
  omega

theorem occ_stepOf (pl : String → Row → Option String) (acc : Forest)
    (kr : String × Row) (ks : List String) (hnd : ks.Nodup)
    (htgt : ∀ p, pl kr.1 kr.2 = some p → p ∈ ks) :
    List.Perm (occ (stepOf pl acc kr) ks) (kr.1 :: occ acc ks) := by
  unfold stepOf
  cases hpl : pl kr.1 kr.2 with
  | none => exact occ_addRoot acc kr.1 ks
  | some p => exact occ_addChild acc p kr.1 ks (htgt p hpl) hnd

theorem occ_fold (pl : String → Row → Option String) (ks : List String) :
    ∀ (entries : List (String × Row)) (acc : Forest),
      (∀ kr ∈ entries, ∀ p, pl kr.1 kr.2 = some p → p ∈ ks) → ks.Nodup →
      List.Perm (occ (entries.foldl (stepOf pl) acc) ks)
        (occ acc ks ++ entries.map Prod.fst) := by
  intro entries
  induction entries with
  | nil => intro acc _ _; simp
  | cons kr t ih =>
      intro acc h hnd
      simp only [List.foldl_cons, List.map_cons]
      have h1 := ih (stepOf pl acc kr) (fun kr' h' p hp => h kr' (List.mem_cons_of_mem _ h') p hp) hnd
      have h2 := occ_stepOf pl acc kr ks hnd (fun p hp => h kr (by simp) p hp)
      refine h1.trans ?_
      refine (h2.append_right (t.map Prod.fst)).trans ?_
      exact (List.perm_middle).symm

theorem occ_buildOf (pl : String → Row → Option String) (m : List (String × Row))
    (h : ∀ kr ∈ m, ∀ p, pl kr.1 kr.2 = some p → p ∈ keysOf m)
    (hnd : (keysOf m).Nodup) :
    List.Perm (occ (buildOf pl m) (keysOf m)) (keysOf m) := by
  rw [buildOf_eq_foldl]
  have h1 := occ_fold pl (keysOf m) m ⟨[], fun _ => []⟩ h hnd
  have hemp : occ ⟨[], fun _ => []⟩ (keysOf m) = [] := by simp [occ]
  rw [hemp] at h1
  simpa [keysOf] using h1

theorem api_step_eq (m : List (String × Row)) (acc : Forest) (kr : String × Row) :
    Api.step m acc kr = stepOf (fun _ r => pidRef m r) acc kr := by
  obtain ⟨k, r⟩ := kr
  cases hp : r.parent_id with
  | none => simp [Api.step, stepOf, pidRef, hp]
  | some p =>
      by_cases h : p ≠ "" ∧ containsKey m p = true <;>
        simp [Api.step, stepOf, pidRef, hp, h]

theorem api_build_eq (rows : List Row) :
    Api.build_tree rows = buildOf (fun _ r => pidRef (byId rows) r) (byId rows) := by
  unfold Api.build_tree
  rw [buildOf_eq_foldl]
  exact List.foldl_ext _ _ _ fun acc kr _ => api_step_eq (byId rows) acc kr

theorem app_step_eq (m : List (String × Row)) (ic : List String) (acc : Forest)
    (kr : String × Row) :
    App.step m ic acc kr = stepOf (appPlace m ic) acc kr := by
  obtain ⟨k, r⟩ := kr
  by_cases hk : k ∈ ic
  · simp [App.step, stepOf, appPlace, hk]
  · cases hp : r.parent_id with
    | none => simp [App.step, stepOf, appPlace, hk, hp]
    | some p =>
        by_cases h : p ≠ "" ∧ containsKey m p = true ∧ p ∉ ic <;>
          simp [App.step, stepOf, appPlace, hk, hp, h]

theorem app_build_eq (rows : List Row) :
    App.build_tree rows =
      buildOf
        (appPlace (byId rows)
          (App.detect_loop (byId rows) ((byId rows).length + 1)).in_cycle)
        (byId rows) := by
  unfold App.build_tree
  rw [buildOf_eq_foldl]
  exact List.foldl_ext _ _ _ fun acc kr _ => app_step_eq _ _ acc kr

theorem lookup_some_contains (m : List (String × Row)) (k : String) (r : Row)
    (h : lookupKey m k = some r) : containsKey m k = true := by
  unfold lookupKey at h
  cases hf : m.find? (fun p => p.1 = k) with
  | none => rw [hf] at h; cases h
  | some p =>
      have h1 := List.find?_some hf
      have h2 := List.mem_of_find?_eq_some hf
      exact List.any_eq_true.mpr ⟨p, h2, h1⟩

theorem pidRef_dangling (m : List (String × Row)) (r : Row) (p : String)
    (hp : r.parent_id = some p) (hc : ¬ containsKey m p = true) :
    pidRef m r = none := by
  unfold pidRef
  rw [hp]
  simp [hc]

theorem dangling_root_api (rows : List Row) (hnd : (rows.map Row.id).Nodup)
    (r : Row) (hr : r ∈ rows) (p : String) (hp : r.parent_id = some p)
    (hd : p ∉ rows.map Row.id) : r.id ∈ (Api.build_tree rows).roots := by
  rw [api_build_eq, buildOf_eq_foldl]
  have hm : (r.id, r) ∈ byId rows := by
    rw [byId_eq_map rows hnd]; exact List.mem_map_of_mem _ hr
  have hc : ¬ containsKey (byId rows) p = true := by
    intro h
    exact hd ((mem_keysOf_byId rows p).mp ((containsKey_iff_mem _ _).mp h))
  exact (foldl_stepOf_place _ (byId rows) _ r.id r hm).1 (pidRef_dangling _ r p hp hc)

theorem dangling_root_app (rows : List Row) (hnd : (rows.map Row.id).Nodup)
    (r : Row) (hr : r ∈ rows) (p : String) (hp : r.parent_id = some p)
    (hd : p ∉ rows.map Row.id) : r.id ∈ (App.build_tree rows).roots := by
  rw [app_build_eq, buildOf_eq_foldl]
  have hm : (r.id, r) ∈ byId rows := by
    rw [byId_eq_map rows hnd]; exact List.mem_map_of_mem _ hr
  have hc : ¬ containsKey (byId rows) p = true := by
    intro h
    exact hd ((mem_keysOf_byId rows p).mp ((containsKey_iff_mem _ _).mp h))
  refine (foldl_stepOf_place _ (byId rows) _ r.id r hm).1 ?_
  unfold appPlace
  by_cases hk : r.id ∈ (App.detect_loop (byId rows) ((byId rows).length + 1)).in_cycle
  · simp [hk]
  · rw [if_neg hk, hp]
    simp [hc]

theorem find_goal_some_contains (m : List (String × Row)) (f : Forest) :
    ∀ (fuel : Nat) (ids : List String) (target : String) (r : Row),
      Main.find_goal m f fuel target ids = some r → containsKey m target = true := by
  intro fuel
  induction fuel with
  | zero => intro ids target r h; simp [Main.find_goal] at h
  | succ n ih =>
      intro ids target r h
      cases ids with
      | nil => simp [Main.find_goal] at h
      | cons k rest =>
          by_cases hk : k = target
          · rw [Main.find_goal, if_pos hk] at h
            exact hk ▸ lookup_some_contains m k r h
          · rw [Main.find_goal, if_neg hk] at h
            cases hc : Main.find_goal m f n target (f.children k) with
            | some r' => rw [hc] at h; exact ih _ _ _ hc
            | none => rw [hc] at h; exact ih _ _ _ h

/-- C6: a row whose `parent_id` is set but matches no row id of the input
(by canonical string form) is placed in the root list by both the
`src/api/db.py` and the `src/app/db.py` tree builder.  Row ids are
pairwise distinct, per the data model (`id` is a unique identifier). -/
theorem dangling_parent_row_is_root (rows : List Row) (hnd : (rows.map Row.id).Nodup)
    (r : Row) (hr : r ∈ rows) (p : String) (hp : r.parent_id = some p)
    (hd : p ∉ rows.map Row.id) :
    r.id ∈ (Api.build_tree rows).roots ∧ r.id ∈ (App.build_tree rows).roots :=
  ⟨dangling_root_api rows hnd r hr p hp hd, dangling_root_app rows hnd r hr p hp hd⟩

/-- Witness for C6 at a concrete input: a two-row store where `b` has the
dangling parent `zz`. -/
theorem dangling_parent_row_is_root_witness :
    (([⟨"a", "u", "A", none, "todo", none⟩,
       ⟨"b", "u", "B", none, "todo", some "zz"⟩].map Row.id).Nodup ∧
     (⟨"b", "u", "B", none, "todo", some "zz"⟩ : Row) ∈
       [⟨"a", "u", "A", none, "todo", none⟩,
        ⟨"b", "u", "B", none, "todo", some "zz"⟩] ∧
     (⟨"b", "u", "B", none, "todo", some "zz"⟩ : Row).parent_id = some "zz" ∧
     "zz" ∉ [⟨"a", "u", "A", none, "todo", none⟩,
        ⟨"b", "u", "B", none, "todo", some "zz"⟩].map Row.id) ∧
    ("b" ∈ (Api.build_tree
        [⟨"a", "u", "A", none, "todo", none⟩,
         ⟨"b", "u", "B", none, "todo", some "zz"⟩]).roots ∧
     "b" ∈ (App.build_tree
        [⟨"a", "u", "A", none, "todo", none⟩,
         ⟨"b", "u", "B", none, "todo", some "zz"⟩]).roots) :=
  ⟨⟨by decide, by decide, by decide, by decide⟩,
   dangling_parent_row_is_root
     [⟨"a", "u", "A", none, "todo", none⟩, ⟨"b", "u", "B", none, "todo", some "zz"⟩]
     (by decide) ⟨"b", "u", "B", none, "todo", some "zz"⟩ (by decide) "zz" (by decide)
     (by decide)⟩

/-- C8: a goal id owned by a different user is answered with 404 by the
GET `/goals/goal_id` endpoint, and what a user observes only depends on
the rows owned by that user. -/
theorem cross_owner_get_goal_not_found (store : List Row) (userX goal_id : String) (g : Row)
    (hnd : (store.map Row.id).Nodup) (hg : g ∈ store) (hgid : g.id = goal_id)
    (howner : g.user_id ≠ userX) :
    Main.get_goal store userX goal_id = none ∧
    (∀ store₂ : List Row,
       store₂.filter (fun r => r.user_id = userX) =
         store.filter (fun r => r.user_id = userX) →
       Main.get_goal store₂ userX goal_id = Main.get_goal store userX goal_id) := by
  constructor
  · cases h : Main.get_goal store userX goal_id with
    | none => rfl
    | some r =>
        exfalso
        simp only [Main.get_goal] at h
        have hc := find_goal_some_contains _ _ _ _ _ _ h
        rw [containsKey_iff_mem, mem_keysOf_byId] at hc
        rcases List.mem_map.mp hc with ⟨r', hr', hid⟩
        have hr's : r' ∈ store := List.mem_of_mem_filter hr'
        have hu : r'.user_id = userX := by simpa using List.of_mem_filter hr'
        have heq : r' = g :=
          List.inj_on_of_nodup_map hnd hr's hg (hid.trans hgid.symm)
        exact howner (heq ▸ hu)
  · intro store₂ he
    simp only [Main.get_goal]
    rw [he]

/-- Witness for C8 at a concrete input: the store holds exactly one goal,
owned by userY; userX requests it. -/
theorem cross_owner_get_goal_not_found_witness :
    (([⟨"g1", "userY", "Goal", none, "todo", none⟩].map Row.id).Nodup ∧
     (⟨"g1", "userY", "Goal", none, "todo", none⟩ : Row) ∈
       [⟨"g1", "userY", "Goal", none, "todo", none⟩] ∧
     (⟨"g1", "userY", "Goal", none, "todo", none⟩ : Row).id = "g1" ∧
     (⟨"g1", "userY", "Goal", none, "todo", none⟩ : Row).user_id ≠ "userX") ∧
    Main.get_goal [⟨"g1", "userY", "Goal", none, "todo", none⟩] "userX" "g1" = none :=
  ⟨⟨by decide, by decide, by decide, by decide⟩,
   (cross_owner_get_goal_not_found [⟨"g1", "userY", "Goal", none, "todo", none⟩]
      "userX" "g1" ⟨"g1", "userY", "Goal", none, "todo", none⟩ (by decide) (by decide)
      (by decide) (by decide)).1⟩

/-- C9: a `none` field of the incoming patch is omitted from the update
dictionary forwarded to the store, so the stored value of that field is
kept; in particular a set `parent_id` can never be cleared by an update.
In the model an explicitly-null JSON field and an absent field are the
same value `none` (Pydantic parses both to `None`), so they are
indistinguishable by construction. -/
theorem update_none_fields_preserved (store : List Row) (user goal_id : String)
    (p : GoalUpdate) (r : Row) (hr : r ∈ store) :
    (r.id ≠ goal_id → r ∈ (Main.update_goal store user goal_id p).1) ∧
    (r.id = goal_id →
       applyPatch r (Main.updates_of p) ∈ (Main.update_goal store user goal_id p).1 ∧
       (p.title = none → (applyPatch r (Main.updates_of p)).title = r.title) ∧
       (p.description = none →
         (applyPatch r (Main.updates_of p)).description = r.description) ∧
       (p.status = none → (applyPatch r (Main.updates_of p)).status = r.status) ∧
       (p.parent_id = none →
         (applyPatch r (Main.updates_of p)).parent_id = r.parent_id) ∧
       (∀ q, r.parent_id = some q →
         (applyPatch r (Main.updates_of p)).parent_id ≠ none)) := by
  constructor
  · intro hne
    simp only [Main.update_goal, Api.update_goal]
    exact List.mem_map.mpr ⟨r, hr, if_neg hne⟩
  · intro heq
    refine ⟨?_, ?_, ?_, ?_, ?_, ?_⟩
    · simp only [Main.update_goal, Api.update_goal]
      exact List.mem_map.mpr ⟨r, hr, if_pos heq⟩
    · intro h; simp [applyPatch, Main.updates_of, h]
    · intro h; simp [applyPatch, Main.updates_of, h]
    · intro h; simp [applyPatch, Main.updates_of, h]
    · intro h; simp [applyPatch, Main.updates_of, h]
    · intro q hq
      cases hu : p.parent_id with
      | none => simp [applyPatch, Main.updates_of, hu, hq]
      | some u => simp [applyPatch, Main.updates_of, hu]

/-- Witness for C9 at a concrete input: a patch that only sets the status
leaves title, description and the set parent_id of the stored row
untouched. -/
theorem update_none_fields_preserved_witness :
    ((⟨"c", "u", "C", none, "todo", some "a"⟩ : Row) ∈
       [⟨"a", "u", "A", none, "todo", none⟩, ⟨"c", "u", "C", none, "todo", some "a"⟩] ∧
     (⟨"c", "u", "C", none, "todo", some "a"⟩ : Row).id = "c") ∧
    ((⟨"c", "u", "C", none, "todo", some "a"⟩ : Row).id = "c" →
       applyPatch ⟨"c", "u", "C", none, "todo", some "a"⟩
           (Main.updates_of ⟨none, none, some "done", none⟩) ∈
         (Main.update_goal
           [⟨"a", "u", "A", none, "todo", none⟩, ⟨"c", "u", "C", none, "todo", some "a"⟩]
           "u" "c" ⟨none, none, some "done", none⟩).1 ∧
       ((⟨none, none, some "done", none⟩ : GoalUpdate).title = none →
         (applyPatch ⟨"c", "u", "C", none, "todo", some "a"⟩
           (Main.updates_of ⟨none, none, some "done", none⟩)).title = "C") ∧
       ((⟨none, none, some "done", none⟩ : GoalUpdate).description = none →
         (applyPatch ⟨"c", "u", "C", none, "todo", some "a"⟩
           (Main.updates_of ⟨none, none, some "done", none⟩)).description = none) ∧
       ((⟨none, none, some "done", none⟩ : GoalUpdate).status = none →
         (applyPatch ⟨"c", "u", "C", none, "todo", some "a"⟩
           (Main.updates_of ⟨none, none, some "done", none⟩)).status = "todo") ∧
       ((⟨none, none, some "done", none⟩ : GoalUpdate).parent_id = none →
         (applyPatch ⟨"c", "u", "C", none, "todo", some "a"⟩
           (Main.updates_of ⟨none, none, some "done", none⟩)).parent_id = some "a") ∧
       (∀ q, (⟨"c", "u", "C", none, "todo", some "a"⟩ : Row).parent_id = some q →
         (applyPatch ⟨"c", "u", "C", none, "todo", some "a"⟩
           (Main.updates_of ⟨none, none, some "done", none⟩)).parent_id ≠ none)) :=
  ⟨⟨by decide, by decide⟩,
   (update_none_fields_preserved
      [⟨"a", "u", "A", none, "todo", none⟩, ⟨"c", "u", "C", none, "todo", some "a"⟩]
      "u" "c" ⟨none, none, some "done", none⟩ ⟨"c", "u", "C", none, "todo", some "a"⟩
      (by decide)).2⟩

/-- C10: deletion removes exactly the rows whose id equals the target and
leaves every other row byte-for-byte unchanged; a former child of the
deleted goal keeps its now-dangling `parent_id` and is returned as a root
by the next `get_all_goals`/`build_tree`. -/
theorem delete_goal_frame (store : List Row) (goal_id : String) :
    (Api.delete_goal store goal_id).1 = store.filter (fun r => ¬ r.id = goal_id) ∧
    (∀ r ∈ store, r.id ≠ goal_id → r ∈ (Api.delete_goal store goal_id).1) ∧
    (∀ r ∈ (Api.delete_goal store goal_id).1, r ∈ store ∧ r.id ≠ goal_id) ∧
    (∀ (uid : String) (c : Row), (store.map Row.id).Nodup → c ∈ store →
       c.user_id = uid → c.parent_id = some goal_id → c.id ≠ goal_id →
       c.id ∈ (Api.get_all_goals (Api.delete_goal store goal_id).1 uid).roots) := by
  refine ⟨rfl, ?_, ?_, ?_⟩
  · intro r hr hne
    simp [Api.delete_goal, List.mem_filter, hr, hne]
  · intro r hr
    simp only [Api.delete_goal] at hr
    exact ⟨List.mem_of_mem_filter hr, by simpa using List.of_mem_filter hr⟩
  · intro uid c hnd hc hu hp hne
    set rows := ((Api.delete_goal store goal_id).1.filter (fun r => r.user_id = uid)) with hrows
    have hsub : rows.Sublist store :=
      (List.filter_sublist _).trans (List.filter_sublist _)
    have hnd' : (rows.map Row.id).Nodup := hnd.sublist (hsub.map Row.id)
    have hcr : c ∈ rows := by
      refine List.mem_filter.mpr ⟨?_, ?_⟩
      · simp [Api.delete_goal, List.mem_filter, hc, hne]
      · simpa using hu
    have hgone : goal_id ∉ rows.map Row.id := by
      intro hmem
      rcases List.mem_map.mp hmem with ⟨x, hx, hxid⟩
      have hxd : x ∈ (Api.delete_goal store goal_id).1 := List.mem_of_mem_filter hx
      simp only [Api.delete_goal] at hxd
      have hxne := List.of_mem_filter hxd
      simp only [decide_not, Bool.not_eq_true', decide_eq_false_iff_not] at hxne
      exact hxne hxid
    exact dangling_root_api rows hnd' c hcr goal_id hp hgone

/-- Witness for C10 at a concrete input: deleting the parent `a` leaves
its child `c` with the dangling reference, and `c` is a root of the next
tree build. -/
theorem delete_goal_frame_witness :
    (([⟨"a", "u", "A", none, "todo", none⟩,
       ⟨"c", "u", "C", none, "todo", some "a"⟩].map Row.id).Nodup ∧
     (⟨"c", "u", "C", none, "todo", some "a"⟩ : Row) ∈
       [⟨"a", "u", "A", none, "todo", none⟩,
        ⟨"c", "u", "C", none, "todo", some "a"⟩] ∧
     (⟨"c", "u", "C", none, "todo", some "a"⟩ : Row).user_id = "u" ∧
     (⟨"c", "u", "C", none, "todo", some "a"⟩ : Row).parent_id = some "a" ∧
     (⟨"c", "u", "C", none, "todo", some "a"⟩ : Row).id ≠ "a") ∧
    "c" ∈ (Api.get_all_goals
      (Api.delete_goal
        [⟨"a", "u", "A", none, "todo", none⟩,
         ⟨"c", "u", "C", none, "todo", some "a"⟩] "a").1 "u").roots :=
  ⟨⟨by decide, by decide, by decide, by decide, by decide⟩,
   (delete_goal_frame
      [⟨"a", "u", "A", none, "todo", none⟩,
       ⟨"c", "u", "C", none, "todo", some "a"⟩] "a").2.2.2 "u"
      ⟨"c", "u", "C", none, "todo", some "a"⟩
      (by decide) (by decide) (by decide) (by decide) (by decide)⟩

/-- C1 counterexample: in the `src/api/db.py` builder the members of the
2-cycle a→b→a are placed in each other's children lists and the root list
is empty; in the `src/app/db.py` builder the node d, whose parent chain
d→c→a→b→a revisits a node (a) on its own path and is therefore a
cycle-member in the claim's sense, is nested under c instead of being
placed in the root list. -/
theorem cycle_members_missing_from_roots :
    ((Api.build_tree
        [⟨"a", "u", "A", none, "todo", some "b"⟩,
         ⟨"b", "u", "B", none, "todo", some "a"⟩]).roots = [] ∧
     (Api.build_tree
        [⟨"a", "u", "A", none, "todo", some "b"⟩,
         ⟨"b", "u", "B", none, "todo", some "a"⟩]).children "a" = ["b"] ∧
     (Api.build_tree
        [⟨"a", "u", "A", none, "todo", some "b"⟩,
         ⟨"b", "u", "B", none, "todo", some "a"⟩]).children "b" = ["a"]) ∧
    (pidKey (byId
        [⟨"a", "u", "A", none, "todo", some "b"⟩,
         ⟨"b", "u", "B", none, "todo", some "a"⟩,
         ⟨"c", "u", "C", none, "todo", some "a"⟩,
         ⟨"d", "u", "D", none, "todo", some "c"⟩]) "d" = some "c" ∧
     pidKey (byId
        [⟨"a", "u", "A", none, "todo", some "b"⟩,
         ⟨"b", "u", "B", none, "todo", some "a"⟩,
         ⟨"c", "u", "C", none, "todo", some "a"⟩,
         ⟨"d", "u", "D", none, "todo", some "c"⟩]) "c" = some "a" ∧
     pidKey (byId
        [⟨"a", "u", "A", none, "todo", some "b"⟩,
         ⟨"b", "u", "B", none, "todo", some "a"⟩,
         ⟨"c", "u", "C", none, "todo", some "a"⟩,
         ⟨"d", "u", "D", none, "todo", some "c"⟩]) "a" = some "b" ∧
     pidKey (byId
        [⟨"a", "u", "A", none, "todo", some "b"⟩,
         ⟨"b", "u", "B", none, "todo", some "a"⟩,
         ⟨"c", "u", "C", none, "todo", some "a"⟩,
         ⟨"d", "u", "D", none, "todo", some "c"⟩]) "b" = some "a" ∧
     (App.build_tree
        [⟨"a", "u", "A", none, "todo", some "b"⟩,
         ⟨"b", "u", "B", none, "todo", some "a"⟩,
         ⟨"c", "u", "C", none, "todo", some "a"⟩,
         ⟨"d", "u", "D", none, "todo", some "c"⟩]).roots = ["a", "b", "c"] ∧
     (App.build_tree
        [⟨"a", "u", "A", none, "todo", some "b"⟩,
         ⟨"b", "u", "B", none, "todo", some "a"⟩,
         ⟨"c", "u", "C", none, "todo", some "a"⟩,
         ⟨"d", "u", "D", none, "todo", some "c"⟩]).children "c" = ["d"]) := by
  exact ⟨⟨by decide, by decide, by decide⟩,
         by decide, by decide, by decide, by decide, by decide, by decide⟩

/-- C2 counterexample: for the 2-cycle input a→b→a the `src/api/db.py`
builder returns an empty root list, so neither input row is reachable
from the returned structure — both rows are lost. -/
theorem api_cycle_rows_unreachable :
    (Api.build_tree
        [⟨"a", "u", "A", none, "todo", some "b"⟩,
         ⟨"b", "u", "B", none, "todo", some "a"⟩]).roots = [] ∧
    ¬ Reach (Api.build_tree
        [⟨"a", "u", "A", none, "todo", some "b"⟩,
         ⟨"b", "u", "B", none, "todo", some "a"⟩]) "a" ∧
    ¬ Reach (Api.build_tree
        [⟨"a", "u", "A", none, "todo", some "b"⟩,
         ⟨"b", "u", "B", none, "todo", some "a"⟩]) "b" := by
  refine ⟨by decide, ?_, ?_⟩ <;> exact reach_nil_roots _ (by decide) _

/-- C3: the PATCH endpoint performs no ancestry check — setting goal a's
parent to its own child d is applied to the store (producing the 2-cycle
a→d→a) and answered with the updated row instead of being rejected with
a CycleError and no mutation. -/
theorem reparent_to_descendant_applied :
    (Api.build_tree
        [⟨"a", "u", "A", none, "todo", none⟩,
         ⟨"d", "u", "D", none, "todo", some "a"⟩]).children "a" = ["d"] ∧
    Main.update_goal
        [⟨"a", "u", "A", none, "todo", none⟩,
         ⟨"d", "u", "D", none, "todo", some "a"⟩]
        "u" "a" ⟨none, none, none, some "d"⟩ =
      ([⟨"a", "u", "A", none, "todo", some "d"⟩,
        ⟨"d", "u", "D", none, "todo", some "a"⟩],
       some ⟨"a", "u", "A", none, "todo", some "d"⟩) := by
  exact ⟨by decide, by decide⟩

/-- C4: the PATCH endpoint never consults the authenticated user — a
patch issued by userX against a goal owned by userY is applied to the
stored row and answered with the updated row (HTTP 200), not rejected as
NotFound with the row unchanged. -/
theorem cross_owner_update_applied :
    Main.update_goal [⟨"g1", "userY", "Goal", none, "todo", none⟩]
        "userX" "g1" ⟨some "hacked", none, none, none⟩ =
      ([⟨"g1", "userY", "hacked", none, "todo", none⟩],
       some ⟨"g1", "userY", "hacked", none, "todo", none⟩) := by
  decide

/-- C5: goal creation performs no parent validation — a create request
whose `parent_id` matches no existing goal persists a row carrying the
dangling reference instead of failing with InvalidParentError and
persisting nothing. -/
theorem dangling_parent_create_persisted :
    Main.create_goal [] "new1" "userX" "X" (some "nonexistent") none none =
      ([⟨"new1", "userX", "X", none, "todo", some "nonexistent"⟩],
       ⟨"new1", "userX", "X", none, "todo", some "nonexistent"⟩) := by
  decide

/-- C7: the flattening projection maps the internal status `in_progress`
(a member of the code's own `GoalStatus` enumeration) to progress 0.0 and
presentation status `pending`, because `_flatten_tree` only recognizes the
literal string `doing`; the claim requires 0.5 and `active`. -/
theorem in_progress_flattened_as_pending :
    Main.get_tree [⟨"g1", "u", "G", none, "in_progress", none⟩] "u" =
      [⟨"g1", none, "G", 0, "pending"⟩] := by
  decide

theorem step_src_mem (m : List (String × Row)) (a b : String) (h : Step m a b) :
    a ∈ keysOf m := by
  unfold Step pidKey at h
  cases hlk : lookupKey m a with
  | none => rw [hlk] at h; cases h
  | some r => exact (containsKey_iff_mem _ _).mp (lookup_some_contains m a r hlk)

theorem step_tgt_mem (m : List (String × Row)) (a b : String) (h : Step m a b) :
    b ∈ keysOf m := by
  have h' : pidKey m a = some b := h
  unfold pidKey at h'
  cases hlk : lookupKey m a with
  | none => rw [hlk] at h'; cases h'
  | some r =>
      rw [hlk] at h'
      have h2 : pidRef m r = some b := h'
      unfold pidRef at h2
      cases hp : r.parent_id with
      | none => rw [hp] at h2; cases h2
      | some p =>
          rw [hp] at h2
          have h3 : (if p ≠ "" ∧ containsKey m p = true then some p else none) = some b := h2
          by_cases hc : p ≠ "" ∧ containsKey m p = true
          · rw [if_pos hc] at h3
            obtain rfl := Option.some.inj h3
            exact (containsKey_iff_mem _ _).mp hc.2
          · rw [if_neg hc] at h3; cases h3

theorem detect_cycle_mono (m : List (String × Row)) :
    ∀ (fuel : Nat) (n : String) (path : List String) (st : App.DetSt),
      st.visited ⊆ (App.detect_cycle m fuel n path st).2.visited ∧
      st.in_cycle ⊆ (App.detect_cycle m fuel n path st).2.in_cycle := by
  intro fuel
  induction fuel with
  | zero => intro n path st; exact ⟨fun x h => h, fun x h => h⟩
  | succ f ih =>
      intro n path st
      by_cases h1 : n ∈ path
      · simp [App.detect_cycle, h1]
      · by_cases h2 : n ∈ st.visited
        · simp [App.detect_cycle, h1, h2]
        · cases hlk : lookupKey m n with
          | none =>
              simp only [App.detect_cycle, if_neg h1, if_neg h2, hlk]
              exact ⟨fun x h => List.mem_cons_of_mem _ h, fun x h => h⟩
          | some node =>
              cases hp : node.parent_id with
              | none =>
                  simp only [App.detect_cycle, if_neg h1, if_neg h2, hlk, hp]
                  exact ⟨fun x h => List.mem_cons_of_mem _ h, fun x h => h⟩
              | some p =>
                  by_cases hc : p ≠ "" ∧ containsKey m p = true
                  · simp only [App.detect_cycle, if_neg h1, if_neg h2, hlk, hp, if_pos hc]
                    have hrec := ih p (n :: path) ⟨n :: st.visited, st.in_cycle⟩
                    by_cases hb :
                        (App.detect_cycle m f p (n :: path) ⟨n :: st.visited, st.in_cycle⟩).1 = true
                    · simp only [hb, if_pos rfl, if_true]
                      constructor
                      · exact fun x h => hrec.1 (List.mem_cons_of_mem _ h)
                      · exact fun x h => List.mem_cons_of_mem _ (hrec.2 h)
                    · simp only [Bool.not_eq_true] at hb
                      simp only [hb, Bool.false_eq_true, if_false]
                      constructor
                      · exact fun x h => hrec.1 (List.mem_cons_of_mem _ h)
                      · exact fun x h => hrec.2 h
                  · simp only [App.detect_cycle, if_neg h1, if_neg h2, hlk, hp, if_neg hc]
                    exact ⟨fun x h => List.mem_cons_of_mem _ h, fun x h => h⟩

theorem detect_cycle_visits (m : List (String × Row)) (fuel : Nat) (n : String)
    (path : List String) (st : App.DetSt) (hn : n ∉ path) (hf : 0 < fuel) :
    n ∈ (App.detect_cycle m fuel n path st).2.visited := by
  cases fuel with
  | zero => cases hf
  | succ f =>
      by_cases h2 : n ∈ st.visited
      · exact (detect_cycle_mono m (f + 1) n path st).1 h2
      · cases hlk : lookupKey m n with
        | none =>
            simp only [App.detect_cycle, if_neg hn, if_neg h2, hlk]
            exact List.mem_cons_self _ _
        | some node =>
            cases hp : node.parent_id with
            | none =>
                simp only [App.detect_cycle, if_neg hn, if_neg h2, hlk, hp]
                exact List.mem_cons_self _ _
            | some p =>
                by_cases hc : p ≠ "" ∧ containsKey m p = true
                · simp only [App.detect_cycle, if_neg hn, if_neg h2, hlk, hp, if_pos hc]
                  have hrec :=
                    (detect_cycle_mono m f p (n :: path) ⟨n :: st.visited, st.in_cycle⟩).1
                      (List.mem_cons_self _ _)
                  by_cases hb :
                      (App.detect_cycle m f p (n :: path) ⟨n :: st.visited, st.in_cycle⟩).1 = true
                  · simp only [hb, if_true]
                    exact hrec
                  · simp only [Bool.not_eq_true] at hb
                    simp only [hb, Bool.false_eq_true, if_false]
                    exact hrec
                · simp only [App.detect_cycle, if_neg hn, if_neg h2, hlk, hp, if_neg hc]
                  exact List.mem_cons_self _ _

theorem iterK_add (m : List (String × Row)) :
    ∀ (a b : Nat) (n : String),
      iterK m (a + b) n = (iterK m a n).bind (fun x => iterK m b x) := by
  intro a
  induction a with
  | zero => intro b n; simp [iterK]
  | succ a ih =>
      intro b n
      have h1 : a + 1 + b = (a + b) + 1 := by omega
      rw [h1]
      show (match pidKey m n with
            | none => none
            | some p => iterK m (a + b) p) =
        ((match pidKey m n with
          | none => none
          | some p => iterK m a p) : Option String).bind (fun x => iterK m b x)
      cases pidKey m n with
      | none => rfl
      | some p => exact ih b p

theorem iterK_none_absorb (m : List (String × Row)) (j d : Nat) (n : String)
    (h : iterK m j n = none) : iterK m (j + d) n = none := by
  rw [iterK_add, h]
  rfl

theorem iterK_cycle_mul (m : List (String × Row)) (L : Nat) (n : String)
    (h : iterK m L n = some n) : ∀ k, iterK m (k * L) n = some n := by
  intro k
  induction k with
  | zero => simp [iterK]
  | succ k ih =>
      have h1 : (k + 1) * L = k * L + L := by ring
      rw [h1, iterK_add, ih]
      exact h

theorem iter_cycle_not_terminating (m : List (String × Row)) (L : Nat) (n : String)
    (hL : 0 < L) (hiter : iterK m L n = some n) : ¬ Terminating m n := by
  rintro ⟨j, hj⟩
  have h1 : iterK m (j * L) n = some n := iterK_cycle_mul m L n hiter j
  have h2 : j ≤ j * L := by
    calc j = j * 1 := (Nat.mul_one j).symm
    _ ≤ j * L := Nat.mul_le_mul_left j hL
  have h3 : iterK m (j + (j * L - j)) n = none := iterK_none_absorb m j _ n hj
  rw [Nat.add_sub_cancel' h2, h1] at h3
  cases h3

theorem step_terminating_iff (m : List (String × Row)) (a b : String) (h : Step m a b) :
    Terminating m a ↔ Terminating m b := by
  constructor
  · rintro ⟨j, hj⟩
    cases j with
    | zero => cases hj
    | succ j' =>
        refine ⟨j', ?_⟩
        unfold iterK at hj
        rw [h] at hj
        exact hj
  · rintro ⟨j, hj⟩
    refine ⟨j + 1, ?_⟩
    show (match pidKey m a with
          | none => none
          | some p => iterK m j p) = none
    rw [h]
    exact hj

theorem chain_steps_not_terminating (m : List (String × Row)) :
    ∀ (l : List String) (x : String), List.Chain (Step m) x (l ++ [x]) →
      ¬ Terminating m x := by
  intro l x hch
  have hiter : ∀ (l' : List String) (a b : String), List.Chain (Step m) a (l' ++ [b]) →
      iterK m (l'.length + 1) a = some b := by
    intro l'
    induction l' with
    | nil =>
        intro a b hc
        rcases List.chain_cons.mp hc with ⟨hs, _⟩
        show (match pidKey m a with
              | none => none
              | some p => iterK m 0 p) = some b
        rw [hs]
        rfl
    | cons y t ih =>
        intro a b hc
        rcases List.chain_cons.mp hc with ⟨hs, hc'⟩
        have h1 := ih y b hc'
        show (match pidKey m a with
              | none => none
              | some p => iterK m (t.length + 1) p) = some b
        rw [hs]
        exact h1
  exact iter_cycle_not_terminating m (l.length + 1) x (by omega) (hiter l x x hch)

theorem oncycle_not_terminating (m : List (String × Row)) (x : String)
    (h : OnCycle m x) : ¬ Terminating m x := by
  rcases h with ⟨l, hch, _⟩
  exact chain_steps_not_terminating m l x hch

theorem chainpath_mem_keys (m : List (String × Row)) :
    ∀ (path : List String) (n : String), ChainPath m path n → ∀ x ∈ path, x ∈ keysOf m := by
  intro path
  induction path with
  | nil => intro n _ x hx; cases hx
  | cons a rest ih =>
      intro n hcp x hx
      rcases hcp with ⟨hstep, hrest⟩
      rcases List.mem_cons.mp hx with rfl | hx'
      · exact step_src_mem m x n hstep
      · exact ih a hrest x hx'

theorem chainpath_desc (m : List (String × Row)) :
    ∀ (pre : List String) (x : String) (suf : List String) (n : String),
      ChainPath m (pre ++ x :: suf) n → List.Chain (Step m) x (pre.reverse ++ [n]) := by
  intro pre
  induction pre with
  | nil =>
      intro x suf n hcp
      rcases hcp with ⟨hstep, _⟩
      simpa using List.Chain.cons hstep List.Chain.nil
  | cons a pre' ih =>
      intro x suf n hcp
      rcases hcp with ⟨hstep, hrest⟩
      have h1 := ih x suf a hrest
      rw [List.reverse_cons, List.append_assoc]
      exact List.chain_split.mpr ⟨h1, List.Chain.cons hstep List.Chain.nil⟩

theorem cycle_of_chainpath_step (m : List (String × Row)) (acc : List String) (k p : String)
    (hcp : ChainPath m acc k) (hstep : Step m k p) (hmem : p ∈ k :: acc)
    (hnd : (k :: acc).Nodup) : OnCycle m p := by
  rcases List.mem_cons.mp hmem with rfl | hacc
  · exact ⟨[], by simpa using List.Chain.cons hstep List.Chain.nil, by simp⟩
  · obtain ⟨pre, suf, rfl⟩ := List.append_of_mem hacc
    have hdesc := chainpath_desc m pre p suf k hcp
    refine ⟨pre.reverse ++ [k], ?_, ?_⟩
    · rw [List.append_assoc]
      exact List.chain_split.mpr ⟨hdesc, List.Chain.cons hstep List.Chain.nil⟩
    · have hperm : List.Perm (p :: (pre.reverse ++ [k])) (k :: (pre ++ [p])) := by
        refine List.perm_iff_count.mpr fun a => ?_
        simp only [List.count_append, List.count_cons, List.count_reverse, List.count_nil]
        omega
      have hsub : (k :: (pre ++ [p])).Sublist (k :: (pre ++ p :: suf)) :=
        List.Sublist.cons₂ _
          (List.Sublist.append_left (List.Sublist.cons₂ _ (List.nil_sublist _)) pre)
      exact hperm.nodup_iff.mpr (hnd.sublist hsub)

theorem cycle_rotate (m : List (String × Row)) (c : String) (l : List String)
    (hch : List.Chain (Step m) c (l ++ [c])) (hnd : (c :: l).Nodup) (n : String)
    (hn : n ∈ c :: l) :
    ∃ l', List.Chain (Step m) n (l' ++ [n]) ∧ (n :: l').Nodup ∧
      ∀ x, (x ∈ n :: l' ↔ x ∈ c :: l) := by
  rcases List.mem_cons.mp hn with rfl | hnl
  · exact ⟨l, hch, hnd, fun x => Iff.rfl⟩
  · obtain ⟨s, t, rfl⟩ := List.append_of_mem hnl
    have hch' : List.Chain (Step m) c (s ++ n :: (t ++ [c])) := by
      simpa [List.append_assoc] using hch
    have hsplit := List.chain_split.mp hch'
    have hperm : List.Perm (n :: (t ++ c :: s)) (c :: (s ++ n :: t)) := by
      refine List.perm_iff_count.mpr fun a => ?_
      simp only [List.count_append, List.count_cons, List.count_nil]
      omega
    refine ⟨t ++ c :: s, ?_, ?_, ?_⟩
    · have h2 : List.Chain (Step m) n (t ++ c :: (s ++ [n])) :=
        List.chain_split.mpr ⟨hsplit.2, hsplit.1⟩
      simpa [List.append_assoc] using h2
    · exact hperm.nodup_iff.mpr hnd
    · exact fun x => hperm.mem_iff

theorem length_filter_mono_pred (ks : List String) (p q : String → Bool)
    (h : ∀ x, p x = true → q x = true) :
    (ks.filter p).length ≤ (ks.filter q).length := by
  induction ks with
  | nil => exact Nat.le_refl 0
  | cons x t ih =>
      by_cases hx : p x = true
      · rw [List.filter_cons, List.filter_cons, if_pos hx, if_pos (h x hx)]
        simpa using ih
      · rw [List.filter_cons, if_neg hx]
        rw [List.filter_cons]
        by_cases hq : q x = true
        · rw [if_pos hq]
          exact ih.trans (by simp)
        · rw [if_neg hq]
          exact ih

theorem unvisited_le_keys (m : List (String × Row)) (st : App.DetSt) :
    unvisitedCount m st ≤ (keysOf m).length :=
  List.length_filter_le _ _

theorem unvisited_cons_le (m : List (String × Row)) (vis : List String)
    (ic ic' : List String) (n : String) (hn : n ∈ keysOf m) (hnv : n ∉ vis) :
    unvisitedCount m ⟨n :: vis, ic'⟩ + 1 ≤ unvisitedCount m ⟨vis, ic⟩ := by
  unfold unvisitedCount
  simp only []
  revert hn
  induction keysOf m with
  | nil => intro hn; cases hn
  | cons x t ih =>
      intro hn
      by_cases hx : x = n
      · subst hx
        rw [List.filter_cons, List.filter_cons]
        rw [if_neg (by simp), if_pos (by simpa using hnv)]
        have hmono : (t.filter (fun k => (k ∉ x :: vis : Bool))).length ≤
            (t.filter (fun k => (k ∉ vis : Bool))).length := by
          refine length_filter_mono_pred t _ _ fun y hy => ?_
          simp only [decide_eq_true_eq] at hy ⊢
          exact fun hv => hy (List.mem_cons_of_mem _ hv)
        simpa using Nat.add_le_add_right hmono 1
      · have hnt : n ∈ t := by
          rcases List.mem_cons.mp hn with h | h
          · exact absurd h.symm hx
          · exact h
        rw [List.filter_cons, List.filter_cons]
        by_cases hxv : x ∈ vis
        · rw [if_neg (by simp [hxv]), if_neg (by simpa using hxv)]
          exact ih hnt
        · rw [if_pos (by simp [hxv, hx]), if_pos (by simpa using hxv)]
          simpa using Nat.add_le_add_right (ih hnt) 1

theorem pidKey_of_parts (m : List (String × Row)) (n : String) (node : Row) (p : String)
    (hlk : lookupKey m n = some node) (hp : node.parent_id = some p)
    (hc : p ≠ "" ∧ containsKey m p = true) : Step m n p := by
  show pidKey m n = some p
  unfold pidKey
  rw [hlk]
  show pidRef m node = some p
  unfold pidRef
  rw [hp]
  show (if p ≠ "" ∧ containsKey m p = true then some p else none) = some p
  rw [if_pos hc]

theorem step_parts (m : List (String × Row)) (n p : String) (h : Step m n p) :
    ∃ node, lookupKey m n = some node ∧ node.parent_id = some p ∧
      (p ≠ "" ∧ containsKey m p = true) := by
  have h' : pidKey m n = some p := h
  unfold pidKey at h'
  cases hlk : lookupKey m n with
  | none => rw [hlk] at h'; cases h'
  | some node =>
      rw [hlk] at h'
      have h2 : pidRef m node = some p := h'
      unfold pidRef at h2
      cases hp : node.parent_id with
      | none => rw [hp] at h2; cases h2
      | some q =>
          rw [hp] at h2
          have h3 : (if q ≠ "" ∧ containsKey m q = true then some q else none) = some p := h2
          by_cases hc : q ≠ "" ∧ containsKey m q = true
          · rw [if_pos hc] at h3
            obtain rfl := Option.some.inj h3
            exact ⟨node, rfl, hp, hc⟩
          · rw [if_neg hc] at h3; cases h3

theorem unvisited_pos (m : List (String × Row)) (st : App.DetSt) (n : String)
    (hn : n ∈ keysOf m) (hnv : n ∉ st.visited) : 1 ≤ unvisitedCount m st := by
  unfold unvisitedCount
  have hmem : n ∈ (keysOf m).filter (fun k => (k ∉ st.visited : Bool)) :=
    List.mem_filter.mpr ⟨hn, by simpa using hnv⟩
  exact List.length_pos.mpr (List.ne_nil_of_mem hmem)

theorem detect_cycle_complete (m : List (String × Row)) :
    ∀ (l : List String) (fuel : Nat) (n : String) (path : List String) (st : App.DetSt)
      (tgt : String),
      List.Chain (Step m) n (l ++ [tgt]) → (tgt ∈ path ∨ tgt ∈ n :: l) →
      (n :: l).Nodup → (∀ x ∈ n :: l, x ∉ path) → (∀ x ∈ n :: l, x ∉ st.visited) →
      unvisitedCount m st + 1 ≤ fuel →
      (App.detect_cycle m fuel n path st).1 = true ∧
      ∀ x ∈ n :: l, x ∈ (App.detect_cycle m fuel n path st).2.in_cycle := by
  intro l
  induction l with
  | nil =>
      intro fuel n path st tgt hch htgt hnd hpath hvis hfuel
      have hstep : Step m n tgt := by simpa using hch
      have hnk : n ∈ keysOf m := step_src_mem m n tgt hstep
      have hn_path : n ∉ path := hpath n (by simp)
      have hn_vis : n ∉ st.visited := hvis n (by simp)
      have hU : 1 ≤ unvisitedCount m st := unvisited_pos m st n hnk hn_vis
      obtain ⟨f2, rfl⟩ : ∃ f2, fuel = f2 + 1 + 1 := ⟨fuel - 2, by omega⟩
      obtain ⟨node, hlk, hpar, hc⟩ := step_parts m n tgt hstep
      have hcond : tgt = n ∨ tgt ∈ path := by
        rcases htgt with h | h
        · exact Or.inr h
        · exact Or.inl (by simpa using h)
      have heq : App.detect_cycle m (f2 + 1 + 1) n path st =
          (true, ⟨n :: st.visited, n :: st.in_cycle⟩) := by
        simp [App.detect_cycle, hn_path, hn_vis, hlk, hpar, hc, hcond]
      rw [heq]
      exact ⟨rfl, by simp⟩
  | cons d l' ih =>
      intro fuel n path st tgt hch htgt hnd hpath hvis hfuel
      have hpair : Step m n d ∧ List.Chain (Step m) d (l' ++ [tgt]) := by
        simpa using hch
      obtain ⟨hstep, hch'⟩ := hpair
      have hnk : n ∈ keysOf m := step_src_mem m n d hstep
      have hn_path : n ∉ path := hpath n (by simp)
      have hn_vis : n ∉ st.visited := hvis n (by simp)
      obtain ⟨f, rfl⟩ : ∃ f, fuel = f + 1 := ⟨fuel - 1, by omega⟩
      obtain ⟨node, hlk, hpar, hc⟩ := step_parts m n d hstep
      have hnnotin : n ∉ d :: l' := (List.nodup_cons.mp hnd).1
      have htgtd : tgt ∈ (n :: path) ∨ tgt ∈ d :: l' := by
        rcases htgt with h | h
        · exact Or.inl (List.mem_cons_of_mem _ h)
        · rcases List.mem_cons.mp h with rfl | h'
          · exact Or.inl (List.mem_cons_self _ _)
          · exact Or.inr h'
      have hnd' : (d :: l').Nodup := (List.nodup_cons.mp hnd).2
      have hpath' : ∀ x ∈ d :: l', x ∉ (n :: path) := by
        intro x hx
        have hxn : x ≠ n := fun he => hnnotin (he ▸ hx)
        have hxp : x ∉ path := hpath x (List.mem_cons_of_mem _ hx)
        simp [hxn, hxp]
      have hvis' : ∀ x ∈ d :: l',
          x ∉ (⟨n :: st.visited, st.in_cycle⟩ : App.DetSt).visited := by
        intro x hx
        have hxn : x ≠ n := fun he => hnnotin (he ▸ hx)
        have hxv : x ∉ st.visited := hvis x (List.mem_cons_of_mem _ hx)
        simp [hxn, hxv]
      have hfuel' : unvisitedCount m ⟨n :: st.visited, st.in_cycle⟩ + 1 ≤ f := by
        have h1 := unvisited_cons_le m st.visited st.in_cycle st.in_cycle n hnk hn_vis
        have h2 : unvisitedCount m ⟨st.visited, st.in_cycle⟩ = unvisitedCount m st := rfl
        omega
      have hih := ih f d (n :: path) ⟨n :: st.visited, st.in_cycle⟩ tgt hch' htgtd hnd'
        hpath' hvis' hfuel'
      rcases hih with ⟨hb, hmem⟩
      have heq : App.detect_cycle m (f + 1) n path st =
          (true,
            ⟨(App.detect_cycle m f d (n :: path) ⟨n :: st.visited, st.in_cycle⟩).2.visited,
             n :: (App.detect_cycle m f d (n :: path)
               ⟨n :: st.visited, st.in_cycle⟩).2.in_cycle⟩) := by
        simp [App.detect_cycle, hn_path, hn_vis, hlk, hpar, hc, hb]
      rw [heq]
      refine ⟨rfl, ?_⟩
      intro x hx
      rcases List.mem_cons.mp hx with rfl | hx'
      · exact List.mem_cons_self _ _
      · exact List.mem_cons_of_mem _ (hmem x hx')

theorem detect_cycle_sound (m : List (String × Row)) :
    ∀ (fuel : Nat) (n : String) (path : List String) (st : App.DetSt),
      ChainPath m path n →
      ((App.detect_cycle m fuel n path st).1 = true → ¬ Terminating m n) ∧
      (∀ x ∈ (App.detect_cycle m fuel n path st).2.in_cycle,
        x ∈ st.in_cycle ∨ ¬ Terminating m x) := by
  intro fuel
  induction fuel with
  | zero =>
      intro n path st _
      exact ⟨fun h => (Bool.false_ne_true h).elim, fun x hx => Or.inl hx⟩
  | succ f ih =>
      intro n path st hcp
      by_cases h1 : n ∈ path
      · have heq : App.detect_cycle m (f + 1) n path st = (true, st) := by
          simp [App.detect_cycle, h1]
        rw [heq]
        constructor
        · intro _
          obtain ⟨pre, suf, rfl⟩ := List.append_of_mem h1
          exact chain_steps_not_terminating m pre.reverse n (chainpath_desc m pre n suf n hcp)
        · exact fun x hx => Or.inl hx
      · by_cases h2 : n ∈ st.visited
        · have heq : App.detect_cycle m (f + 1) n path st = (false, st) := by
            simp [App.detect_cycle, h1, h2]
          rw [heq]
          exact ⟨fun h => (Bool.false_ne_true h).elim, fun x hx => Or.inl hx⟩
        · cases hlk : lookupKey m n with
          | none =>
              have heq : App.detect_cycle m (f + 1) n path st =
                  (false, ⟨n :: st.visited, st.in_cycle⟩) := by
                simp [App.detect_cycle, h1, h2, hlk]
              rw [heq]
              exact ⟨fun h => (Bool.false_ne_true h).elim, fun x hx => Or.inl hx⟩
          | some node =>
              cases hpar : node.parent_id with
              | none =>
                  have heq : App.detect_cycle m (f + 1) n path st =
                      (false, ⟨n :: st.visited, st.in_cycle⟩) := by
                    simp [App.detect_cycle, h1, h2, hlk, hpar]
                  rw [heq]
                  exact ⟨fun h => (Bool.false_ne_true h).elim, fun x hx => Or.inl hx⟩
              | some p =>
                  by_cases hc : p ≠ "" ∧ containsKey m p = true
                  · have hstep : Step m n p := pidKey_of_parts m n node p hlk hpar hc
                    have hcp' : ChainPath m (n :: path) p := ⟨hstep, hcp⟩
                    have hih := ih p (n :: path) ⟨n :: st.visited, st.in_cycle⟩ hcp'
                    by_cases hb : (App.detect_cycle m f p (n :: path)
                        ⟨n :: st.visited, st.in_cycle⟩).1 = true
                    · have heq : App.detect_cycle m (f + 1) n path st =
                          (true,
                            ⟨(App.detect_cycle m f p (n :: path)
                                ⟨n :: st.visited, st.in_cycle⟩).2.visited,
                             n :: (App.detect_cycle m f p (n :: path)
                                ⟨n :: st.visited, st.in_cycle⟩).2.in_cycle⟩) := by
                        simp [App.detect_cycle, h1, h2, hlk, hpar, hc, hb]
                      rw [heq]
                      have hnt_p : ¬ Terminating m p := hih.1 hb
                      have hnt_n : ¬ Terminating m n := fun ht =>
                        hnt_p ((step_terminating_iff m n p hstep).mp ht)
                      constructor
                      · exact fun _ => hnt_n
                      · intro x hx
                        rcases List.mem_cons.mp hx with rfl | hx'
                        · exact Or.inr hnt_n
                        · exact hih.2 x hx'
                    · have heq : App.detect_cycle m (f + 1) n path st =
                          (false, (App.detect_cycle m f p (n :: path)
                            ⟨n :: st.visited, st.in_cycle⟩).2) := by
                        simp [App.detect_cycle, h1, h2, hlk, hpar, hc, hb]
                      rw [heq]
                      exact ⟨fun h => (Bool.false_ne_true h).elim, fun x hx => hih.2 x hx⟩
                  · have heq : App.detect_cycle m (f + 1) n path st =
                        (false, ⟨n :: st.visited, st.in_cycle⟩) := by
                      simp [App.detect_cycle, h1, h2, hlk, hpar, hc]
                    rw [heq]
                    exact ⟨fun h => (Bool.false_ne_true h).elim, fun x hx => Or.inl hx⟩

theorem detect_cycle_cycle_pres (m : List (String × Row)) (c : String) (cl : List String)
    (hcyc : List.Chain (Step m) c (cl ++ [c])) (hnd : (c :: cl).Nodup) :
    ∀ (fuel : Nat) (n : String) (path : List String) (st : App.DetSt),
      path ⊆ st.visited → unvisitedCount m st + 1 ≤ fuel →
      (∀ x ∈ c :: cl, x ∉ st.visited) →
      (∀ x ∈ c :: cl, x ∉ (App.detect_cycle m fuel n path st).2.visited) ∨
      (∀ x ∈ c :: cl, x ∈ (App.detect_cycle m fuel n path st).2.in_cycle) := by
  intro fuel
  induction fuel with
  | zero => intro n path st _ hf _; exact absurd hf (by omega)
  | succ f ih =>
      intro n path st hps hf hcv
      by_cases h1 : n ∈ path
      · left
        rw [show App.detect_cycle m (f + 1) n path st = (true, st) by
          simp [App.detect_cycle, h1]]
        exact hcv
      · by_cases h2 : n ∈ st.visited
        · left
          rw [show App.detect_cycle m (f + 1) n path st = (false, st) by
            simp [App.detect_cycle, h1, h2]]
          exact hcv
        · by_cases hnC : n ∈ c :: cl
          · right
            obtain ⟨l', hch', hnd', hmem'⟩ := cycle_rotate m c cl hcyc hnd n hnC
            have hW := detect_cycle_complete m l' (f + 1) n path st n hch'
              (Or.inr (by simp)) hnd'
              (fun x hx => fun hxp => hcv x ((hmem' x).mp hx) (hps hxp))
              (fun x hx => hcv x ((hmem' x).mp hx)) hf
            exact fun x hx => hW.2 x ((hmem' x).mpr hx)
          · cases hlk : lookupKey m n with
            | none =>
                left
                rw [show App.detect_cycle m (f + 1) n path st =
                    (false, ⟨n :: st.visited, st.in_cycle⟩) by
                  simp [App.detect_cycle, h1, h2, hlk]]
                intro x hx
                have hxn : x ≠ n := fun he => hnC (he ▸ hx)
                have hxv : x ∉ st.visited := hcv x hx
                simp [hxn, hxv]
            | some node =>
                cases hpar : node.parent_id with
                | none =>
                    left
                    rw [show App.detect_cycle m (f + 1) n path st =
                        (false, ⟨n :: st.visited, st.in_cycle⟩) by
                      simp [App.detect_cycle, h1, h2, hlk, hpar]]
                    intro x hx
                    have hxn : x ≠ n := fun he => hnC (he ▸ hx)
                    have hxv : x ∉ st.visited := hcv x hx
                    simp [hxn, hxv]
                | some p =>
                    by_cases hc : p ≠ "" ∧ containsKey m p = true
                    · have hnk : n ∈ keysOf m :=
                        (containsKey_iff_mem _ _).mp (lookup_some_contains m n node hlk)
                      have hps1 : (n :: path) ⊆ (⟨n :: st.visited, st.in_cycle⟩ : App.DetSt).visited := by
                        intro x hx
                        rcases List.mem_cons.mp hx with rfl | hx'
                        · exact List.mem_cons_self _ _
                        · exact List.mem_cons_of_mem _ (hps hx')
                      have hf1 : unvisitedCount m ⟨n :: st.visited, st.in_cycle⟩ + 1 ≤ f := by
                        have h3 := unvisited_cons_le m st.visited st.in_cycle st.in_cycle n hnk h2
                        have h4 : unvisitedCount m ⟨st.visited, st.in_cycle⟩ =
                          unvisitedCount m st := rfl
                        omega
                      have hcv1 : ∀ x ∈ c :: cl,
                          x ∉ (⟨n :: st.visited, st.in_cycle⟩ : App.DetSt).visited := by
                        intro x hx
                        have hxn : x ≠ n := fun he => hnC (he ▸ hx)
                        have hxv : x ∉ st.visited := hcv x hx
                        simp [hxn, hxv]
                      have hih := ih p (n :: path) ⟨n :: st.visited, st.in_cycle⟩ hps1 hf1 hcv1
                      by_cases hb : (App.detect_cycle m f p (n :: path)
                          ⟨n :: st.visited, st.in_cycle⟩).1 = true
                      · rw [show App.detect_cycle m (f + 1) n path st =
                            (true,
                              ⟨(App.detect_cycle m f p (n :: path)
                                  ⟨n :: st.visited, st.in_cycle⟩).2.visited,
                               n :: (App.detect_cycle m f p (n :: path)
                                  ⟨n :: st.visited, st.in_cycle⟩).2.in_cycle⟩) by
                          simp [App.detect_cycle, h1, h2, hlk, hpar, hc, hb]]
                        rcases hih with hL | hR
                        · exact Or.inl fun x hx => hL x hx
                        · right
                          intro x hx
                          exact List.mem_cons_of_mem _ (hR x hx)
                      · rw [show App.detect_cycle m (f + 1) n path st =
                            (false, (App.detect_cycle m f p (n :: path)
                              ⟨n :: st.visited, st.in_cycle⟩).2) by
                          simp [App.detect_cycle, h1, h2, hlk, hpar, hc, hb]]
                        exact hih
                    · left
                      rw [show App.detect_cycle m (f + 1) n path st =
                          (false, ⟨n :: st.visited, st.in_cycle⟩) by
                        simp [App.detect_cycle, h1, h2, hlk, hpar, hc]]
                      intro x hx
                      have hxn : x ≠ n := fun he => hnC (he ▸ hx)
                      have hxv : x ∉ st.visited := hcv x hx
                      simp [hxn, hxv]

theorem keys_mem_entry (m : List (String × Row)) (k : String) (hk : k ∈ keysOf m) :
    ∃ r, (k, r) ∈ m := by
  rcases List.mem_map.mp hk with ⟨⟨k', r⟩, hmem, rfl⟩
  exact ⟨r, hmem⟩

theorem lookup_of_mem_nodup (m : List (String × Row)) (k : String) (r : Row)
    (hmem : (k, r) ∈ m) (hnd : (keysOf m).Nodup) : lookupKey m k = some r := by
  induction m with
  | nil => cases hmem
  | cons e t ih =>
      rcases List.mem_cons.mp hmem with rfl | hmem'
      · simp [lookupKey, List.find?]
      · have hne : ¬ e.1 = k := by
          intro he
          have hkm : (k, r).1 ∈ keysOf t := List.mem_map_of_mem Prod.fst hmem'
          simp only [keysOf, List.map_cons, List.nodup_cons] at hnd
          exact hnd.1 (by rw [he]; exact hkm)
        simp only [lookupKey, List.find?]
        rw [show (decide (e.1 = k)) = false by simpa using hne]
        exact ih hmem' (by
          simp only [keysOf, List.map_cons, List.nodup_cons] at hnd
          exact hnd.2)

theorem buildOf_place (pl : String → Row → Option String) (m : List (String × Row))
    (k : String) (r : Row) (hmem : (k, r) ∈ m) :
    (pl k r = none → k ∈ (buildOf pl m).roots) ∧
    (∀ p, pl k r = some p → k ∈ (buildOf pl m).children p) := by
  rw [buildOf_eq_foldl]
  exact foldl_stepOf_place pl m _ k r hmem

theorem appPlace_some_parts (m : List (String × Row)) (ic : List String) (k : String)
    (r : Row) (p : String) (h : appPlace m ic k r = some p) :
    k ∉ ic ∧ r.parent_id = some p ∧ (p ≠ "" ∧ containsKey m p = true) ∧ p ∉ ic := by
  unfold appPlace at h
  by_cases hk : k ∈ ic
  · rw [if_pos hk] at h; cases h
  · rw [if_neg hk] at h
    cases hpar : r.parent_id with
    | none => rw [hpar] at h; cases h
    | some q =>
        rw [hpar] at h
        have h3 : (if q ≠ "" ∧ containsKey m q = true ∧ q ∉ ic then some q else none) =
            some p := h
        by_cases hc : q ≠ "" ∧ containsKey m q = true ∧ q ∉ ic
        · rw [if_pos hc] at h3
          obtain rfl := Option.some.inj h3
          exact ⟨hk, rfl, ⟨hc.1, hc.2.1⟩, hc.2.2⟩
        · rw [if_neg hc] at h3; cases h3

theorem nodup_subset_length (l l' : List String) (hnd : l.Nodup)
    (hsub : ∀ x ∈ l, x ∈ l') : l.length ≤ l'.length := by
  have h1 : l.toFinset.card = l.length := List.toFinset_card_of_nodup hnd
  have h2 : l.toFinset ⊆ l'.toFinset := by
    intro x hx
    exact List.mem_toFinset.mpr (hsub x (List.mem_toFinset.mp hx))
  have h3 : l'.toFinset.card ≤ l'.length := l'.toFinset_card_le
  calc l.length = l.toFinset.card := h1.symm
  _ ≤ l'.toFinset.card := Finset.card_le_card h2
  _ ≤ l'.length := h3

theorem loop_fold_mono (m : List (String × Row)) (fuel : Nat) :
    ∀ (ks : List String) (st : App.DetSt),
      st.visited ⊆
        (ks.foldl (fun st k => if k ∈ st.visited then st
          else (App.detect_cycle m fuel k [] st).2) st).visited ∧
      st.in_cycle ⊆
        (ks.foldl (fun st k => if k ∈ st.visited then st
          else (App.detect_cycle m fuel k [] st).2) st).in_cycle := by
  intro ks
  induction ks with
  | nil => intro st; exact ⟨fun x h => h, fun x h => h⟩
  | cons k t ih =>
      intro st
      simp only [List.foldl_cons]
      by_cases hk : k ∈ st.visited
      · rw [if_pos hk]; exact ih st
      · rw [if_neg hk]
        have h1 := detect_cycle_mono m fuel k [] st
        have h2 := ih (App.detect_cycle m fuel k [] st).2
        exact ⟨h1.1.trans h2.1, h1.2.trans h2.2⟩

theorem loop_fold_all_visited (m : List (String × Row)) (fuel : Nat) (hf : 0 < fuel) :
    ∀ (ks : List String) (st : App.DetSt) (k : String), k ∈ ks →
      k ∈ (ks.foldl (fun st k => if k ∈ st.visited then st
        else (App.detect_cycle m fuel k [] st).2) st).visited := by
  intro ks
  induction ks with
  | nil => intro st k h; cases h
  | cons k0 t ih =>
      intro st k hk
      simp only [List.foldl_cons]
      rcases List.mem_cons.mp hk with rfl | hk'
      · by_cases h0 : k ∈ st.visited
        · rw [if_pos h0]
          exact (loop_fold_mono m fuel t _).1 h0
        · rw [if_neg h0]
          exact (loop_fold_mono m fuel t _).1
            (detect_cycle_visits m fuel k [] st (by simp) hf)
      · by_cases h0 : k0 ∈ st.visited
        · rw [if_pos h0]; exact ih st k hk'
        · rw [if_neg h0]; exact ih _ k hk'

theorem detect_loop_all_visited (m : List (String × Row)) (fuel : Nat) (hf : 0 < fuel) :
    ∀ k ∈ keysOf m, k ∈ (App.detect_loop m fuel).visited := by
  intro k hk
  exact loop_fold_all_visited m fuel hf (keysOf m) ⟨[], []⟩ k hk

theorem loop_fold_cycle (m : List (String × Row)) (fuel : Nat)
    (hfl : (keysOf m).length + 1 ≤ fuel) (c : String) (cl : List String)
    (hcyc : List.Chain (Step m) c (cl ++ [c])) (hnd : (c :: cl).Nodup) :
    ∀ (ks : List String) (st : App.DetSt),
      ((∀ x ∈ c :: cl, x ∉ st.visited) ∨ (∀ x ∈ c :: cl, x ∈ st.in_cycle)) →
      ((∀ x ∈ c :: cl, x ∉ (ks.foldl (fun st k => if k ∈ st.visited then st
          else (App.detect_cycle m fuel k [] st).2) st).visited) ∨
       (∀ x ∈ c :: cl, x ∈ (ks.foldl (fun st k => if k ∈ st.visited then st
          else (App.detect_cycle m fuel k [] st).2) st).in_cycle)) := by
  intro ks
  induction ks with
  | nil => intro st h; exact h
  | cons k t ih =>
      intro st h
      simp only [List.foldl_cons]
      by_cases hk : k ∈ st.visited
      · rw [if_pos hk]; exact ih st h
      · rw [if_neg hk]
        refine ih _ ?_
        rcases h with hL | hR
        · have hfc : unvisitedCount m st + 1 ≤ fuel := by
            have := unvisited_le_keys m st
            omega
          exact detect_cycle_cycle_pres m c cl hcyc hnd fuel k [] st
            (by intro x hx; cases hx) hfc hL
        · exact Or.inr fun x hx => (detect_cycle_mono m fuel k [] st).2 (hR x hx)

theorem chain_head_mem_keys (m : List (String × Row)) (c : String) (cl : List String)
    (hcyc : List.Chain (Step m) c (cl ++ [c])) : c ∈ keysOf m := by
  cases cl with
  | nil => exact step_src_mem m c c (by simpa using hcyc)
  | cons d t =>
      have h : Step m c d ∧ List.Chain (Step m) d (t ++ [c]) := by simpa using hcyc
      exact step_src_mem m c d h.1

theorem detect_loop_cycle_marked (m : List (String × Row)) (c : String) (cl : List String)
    (hcyc : List.Chain (Step m) c (cl ++ [c])) (hnd : (c :: cl).Nodup) :
    ∀ x ∈ c :: cl, x ∈ (App.detect_loop m (m.length + 1)).in_cycle := by
  have hlen : (keysOf m).length = m.length := List.length_map _ _
  have h1 := loop_fold_cycle m (m.length + 1) (by omega) c cl hcyc hnd (keysOf m)
    ⟨[], []⟩ (Or.inl (by intro x _ h; cases h))
  rcases h1 with hL | hR
  · exfalso
    have hc : c ∈ keysOf m := chain_head_mem_keys m c cl hcyc
    exact hL c (by simp) (detect_loop_all_visited m (m.length + 1) (by omega) c hc)
  · exact hR

theorem oncycle_in_incycle (m : List (String × Row)) (x : String) (h : OnCycle m x) :
    x ∈ (App.detect_loop m (m.length + 1)).in_cycle := by
  rcases h with ⟨l, hch, hnd⟩
  exact detect_loop_cycle_marked m x l hch hnd x (by simp)

theorem loop_fold_sound (m : List (String × Row)) (fuel : Nat) :
    ∀ (ks : List String) (st : App.DetSt),
      (∀ x ∈ st.in_cycle, ¬ Terminating m x) →
      ∀ x ∈ (ks.foldl (fun st k => if k ∈ st.visited then st
        else (App.detect_cycle m fuel k [] st).2) st).in_cycle, ¬ Terminating m x := by
  intro ks
  induction ks with
  | nil => intro st h; exact h
  | cons k t ih =>
      intro st h
      simp only [List.foldl_cons]
      by_cases hk : k ∈ st.visited
      · rw [if_pos hk]; exact ih st h
      · rw [if_neg hk]
        refine ih _ ?_
        intro x hx
        rcases (detect_cycle_sound m fuel k [] st trivial).2 x hx with hin | hnt
        · exact h x hin
        · exact hnt

theorem detect_loop_sound (m : List (String × Row)) (fuel : Nat) :
    ∀ x ∈ (App.detect_loop m fuel).in_cycle, ¬ Terminating m x := by
  intro x hx
  exact loop_fold_sound m fuel (keysOf m) ⟨[], []⟩ (by intro y hy; cases hy) x hx

theorem app_reach_climb (m : List (String × Row)) (hnd : (keysOf m).Nodup) :
    ∀ (fuelc : Nat) (k : String) (acc : List String),
      k ∈ keysOf m → ChainPath m acc k → (k :: acc).Nodup →
      (keysOf m).length + 1 ≤ fuelc + (k :: acc).length →
      Reach (buildOf (appPlace m (App.detect_loop m (m.length + 1)).in_cycle) m) k := by
  intro fuelc
  induction fuelc with
  | zero =>
      intro k acc hk hcp hnd' hlen
      exfalso
      have hsub : ∀ x ∈ k :: acc, x ∈ keysOf m := by
        intro x hx
        rcases List.mem_cons.mp hx with rfl | hx'
        · exact hk
        · exact chainpath_mem_keys m acc k hcp x hx'
      have hle := nodup_subset_length (k :: acc) (keysOf m) hnd' hsub
      omega
  | succ fc ih =>
      intro k acc hk hcp hnd' hlen
      obtain ⟨r, hmem⟩ := keys_mem_entry m k hk
      cases hpl : appPlace m (App.detect_loop m (m.length + 1)).in_cycle k r with
      | none => exact Reach.root ((buildOf_place _ m k r hmem).1 hpl)
      | some p =>
          have hkc := (buildOf_place _ m k r hmem).2 p hpl
          obtain ⟨hkic, hpar, hc, hpic⟩ := appPlace_some_parts m _ k r p hpl
          have hlk : lookupKey m k = some r := lookup_of_mem_nodup m k r hmem hnd
          have hstep : Step m k p := pidKey_of_parts m k r p hlk hpar hc
          have hpk : p ∈ keysOf m := step_tgt_mem m k p hstep
          have hpnot : p ∉ k :: acc := by
            intro hmem'
            exact hpic (oncycle_in_incycle m p
              (cycle_of_chainpath_step m acc k p hcp hstep hmem' hnd'))
          have hcp' : ChainPath m (k :: acc) p := ⟨hstep, hcp⟩
          have hnd'' : (p :: k :: acc).Nodup := List.nodup_cons.mpr ⟨hpnot, hnd'⟩
          have hlen' : (keysOf m).length + 1 ≤ fc + (p :: k :: acc).length := by
            simp only [List.length_cons] at hlen ⊢
            omega
          exact Reach.child (ih p (k :: acc) hpk hcp' hnd'' hlen') hkc

theorem detect_cycle_fuel_irrel (m : List (String × Row)) :
    ∀ (f1 f2 : Nat) (n : String) (path : List String) (st : App.DetSt),
      unvisitedCount m st + 1 ≤ f1 → unvisitedCount m st + 1 ≤ f2 →
      App.detect_cycle m f1 n path st = App.detect_cycle m f2 n path st := by
  intro f1
  induction f1 with
  | zero => intro f2 n path st h1 _; exact absurd h1 (by omega)
  | succ f ih =>
      intro f2 n path st h1 h2
      obtain ⟨g, rfl⟩ : ∃ g, f2 = g + 1 := ⟨f2 - 1, by omega⟩
      by_cases hp1 : n ∈ path
      · simp [App.detect_cycle, hp1]
      · by_cases hv : n ∈ st.visited
        · simp [App.detect_cycle, hp1, hv]
        · cases hlk : lookupKey m n with
          | none => simp [App.detect_cycle, hp1, hv, hlk]
          | some node =>
              cases hpar : node.parent_id with
              | none => simp [App.detect_cycle, hp1, hv, hlk, hpar]
              | some p =>
                  by_cases hc : p ≠ "" ∧ containsKey m p = true
                  · have hnk : n ∈ keysOf m :=
                      (containsKey_iff_mem _ _).mp (lookup_some_contains m n node hlk)
                    have hrec : App.detect_cycle m f p (n :: path)
                        ⟨n :: st.visited, st.in_cycle⟩ =
                        App.detect_cycle m g p (n :: path)
                        ⟨n :: st.visited, st.in_cycle⟩ := by
                      have h3 := unvisited_cons_le m st.visited st.in_cycle st.in_cycle n hnk hv
                      have h4 : unvisitedCount m ⟨st.visited, st.in_cycle⟩ =
                        unvisitedCount m st := rfl
                      exact ih g p (n :: path) _ (by omega) (by omega)
                    simp [App.detect_cycle, hp1, hv, hlk, hpar, hc, hrec]
                  · simp [App.detect_cycle, hp1, hv, hlk, hpar, hc]

theorem detect_loop_fuel_irrel (m : List (String × Row)) (f1 f2 : Nat)
    (h1 : (keysOf m).length + 1 ≤ f1) (h2 : (keysOf m).length + 1 ≤ f2) :
    App.detect_loop m f1 = App.detect_loop m f2 := by
  unfold App.detect_loop
  suffices h : ∀ (ks : List String) (st : App.DetSt),
      ks.foldl (fun st k => if k ∈ st.visited then st
        else (App.detect_cycle m f1 k [] st).2) st =
      ks.foldl (fun st k => if k ∈ st.visited then st
        else (App.detect_cycle m f2 k [] st).2) st by
    exact h _ _
  intro ks
  induction ks with
  | nil => intro st; rfl
  | cons k t ih =>
      intro st
      simp only [List.foldl_cons]
      by_cases hk : k ∈ st.visited
      · rw [if_pos hk, if_pos hk]; exact ih st
      · rw [if_neg hk, if_neg hk]
        have hu := unvisited_le_keys m st
        rw [detect_cycle_fuel_irrel m f1 f2 k [] st (by omega) (by omega)]
        exact ih _

theorem build_tree_fuel_irrel (extra : Nat) (rows : List Row) :
    App.build_tree_fuel extra rows = App.build_tree rows := by
  unfold App.build_tree_fuel App.build_tree
  simp only []
  have hlen : (keysOf (byId rows)).length = (byId rows).length := List.length_map _ _
  rw [detect_loop_fuel_irrel (byId rows) ((byId rows).length + 1 + extra)
    ((byId rows).length + 1) (by omega) (by omega)]

theorem lookup_mem (m : List (String × Row)) (k : String) (r : Row)
    (h : lookupKey m k = some r) : (k, r) ∈ m := by
  unfold lookupKey at h
  cases hf : m.find? (fun p => p.1 = k) with
  | none => rw [hf] at h; cases h
  | some pr =>
      rw [hf] at h
      obtain rfl : pr.2 = r := Option.some.inj h
      have h1 := List.mem_of_find?_eq_some hf
      have h2 : pr.1 = k := by simpa using List.find?_some hf
      rw [← h2]
      exact (show (pr.1, pr.2) ∈ m from h1)

theorem reach_mem_keys (pl : String → Row → Option String) (m : List (String × Row))
    (htargets : ∀ kr ∈ m, ∀ p, pl kr.1 kr.2 = some p → p ∈ keysOf m)
    (hnd : (keysOf m).Nodup) :
    ∀ k, Reach (buildOf pl m) k → k ∈ keysOf m := by
  have hperm := occ_buildOf pl m htargets hnd
  intro k hr
  induction hr with
  | root hk => exact hperm.mem_iff.mp (List.mem_append_left _ hk)
  | child hp hk ih =>
      exact hperm.mem_iff.mp
        (List.mem_append_right _ (List.mem_flatMap.mpr ⟨_, ih, hk⟩))

/-- C1 (amended): the `src/app/db.py` tree builder terminates — its
bounded detection recursion gives the same result at any surplus fuel —
and places every node that lies on an actual parent_id cycle (a
duplicate-free parent chain returning to the node itself, including a
self-parenting node) in the returned root list, while preserving the
nesting of well-formed chains: a node whose parent chain terminates and
whose builder parent reference is present is appended to that parent's
children.  (The `src/api/db.py` builder instead attaches mutual cycle
members to each other's children lists, per the counterexample.) -/
theorem app_build_cycle_containment (rows : List Row) :
    (∀ extra, App.build_tree_fuel extra rows = App.build_tree rows) ∧
    (∀ k, OnCycle (byId rows) k → k ∈ (App.build_tree rows).roots) ∧
    (∀ k p, Step (byId rows) k p → Terminating (byId rows) k →
       k ∈ (App.build_tree rows).children p) := by
  refine ⟨fun extra => build_tree_fuel_irrel extra rows, ?_, ?_⟩
  · intro k honc
    have hk : k ∈ keysOf (byId rows) := by
      rcases honc with ⟨l, hch, _⟩
      exact chain_head_mem_keys (byId rows) k l hch
    obtain ⟨r, hmem⟩ := keys_mem_entry (byId rows) k hk
    have hic : k ∈ (App.detect_loop (byId rows) ((byId rows).length + 1)).in_cycle :=
      oncycle_in_incycle (byId rows) k honc
    rw [app_build_eq]
    refine (buildOf_place _ (byId rows) k r hmem).1 ?_
    simp [appPlace, hic]
  · intro k p hstep hterm
    have hknic : k ∉ (App.detect_loop (byId rows) ((byId rows).length + 1)).in_cycle :=
      fun hin => (detect_loop_sound (byId rows) ((byId rows).length + 1) k hin) hterm
    have hpterm : Terminating (byId rows) p :=
      (step_terminating_iff (byId rows) k p hstep).mp hterm
    have hpnic : p ∉ (App.detect_loop (byId rows) ((byId rows).length + 1)).in_cycle :=
      fun hin => (detect_loop_sound (byId rows) ((byId rows).length + 1) p hin) hpterm
    obtain ⟨node, hlk, hpar, hc⟩ := step_parts (byId rows) k p hstep
    have hmem : (k, node) ∈ byId rows := lookup_mem (byId rows) k node hlk
    rw [app_build_eq]
    refine (buildOf_place _ (byId rows) k node hmem).2 p ?_
    simp [appPlace, hknic, hpar, hc.1, hc.2, hpnic]

/-- Witness for C1 (amended) at concrete inputs: in the four-row store
with the 2-cycle a↔b, node `a` lies on a cycle and is a root; in the
two-row store x←y the terminating node `y` nests under its parent `x`;
and surplus detection fuel does not change the result. -/
theorem app_build_cycle_containment_witness :
    (OnCycle (byId
        [⟨"a", "u", "A", none, "todo", some "b"⟩,
         ⟨"b", "u", "B", none, "todo", some "a"⟩,
         ⟨"c", "u", "C", none, "todo", some "a"⟩,
         ⟨"d", "u", "D", none, "todo", some "c"⟩]) "a" ∧
     Step (byId
        [⟨"x", "u", "X", none, "todo", none⟩,
         ⟨"y", "u", "Y", none, "todo", some "x"⟩]) "y" "x" ∧
     Terminating (byId
        [⟨"x", "u", "X", none, "todo", none⟩,
         ⟨"y", "u", "Y", none, "todo", some "x"⟩]) "y") ∧
    (App.build_tree_fuel 5
        [⟨"a", "u", "A", none, "todo", some "b"⟩,
         ⟨"b", "u", "B", none, "todo", some "a"⟩,
         ⟨"c", "u", "C", none, "todo", some "a"⟩,
         ⟨"d", "u", "D", none, "todo", some "c"⟩] =
      App.build_tree
        [⟨"a", "u", "A", none, "todo", some "b"⟩,
         ⟨"b", "u", "B", none, "todo", some "a"⟩,
         ⟨"c", "u", "C", none, "todo", some "a"⟩,
         ⟨"d", "u", "D", none, "todo", some "c"⟩] ∧
     "a" ∈ (App.build_tree
        [⟨"a", "u", "A", none, "todo", some "b"⟩,
         ⟨"b", "u", "B", none, "todo", some "a"⟩,
         ⟨"c", "u", "C", none, "todo", some "a"⟩,
         ⟨"d", "u", "D", none, "todo", some "c"⟩]).roots ∧
     "y" ∈ (App.build_tree
        [⟨"x", "u", "X", none, "todo", none⟩,
         ⟨"y", "u", "Y", none, "todo", some "x"⟩]).children "x") := by
  refine ⟨⟨⟨["b"], ?_, by decide⟩, by decide, ⟨2, by decide⟩⟩, ?_, ?_, ?_⟩
  · exact List.Chain.cons (by decide) (List.Chain.cons (by decide) List.Chain.nil)
  · exact (app_build_cycle_containment _).1 5
  · refine (app_build_cycle_containment _).2.1 "a" ⟨["b"], ?_, by decide⟩
    exact List.Chain.cons (by decide) (List.Chain.cons (by decide) List.Chain.nil)
  · exact (app_build_cycle_containment _).2.2 "y" "x" (by decide) ⟨2, by decide⟩

/-- C2 (amended): for input rows with pairwise-distinct ids (the data
model's unique `id`), the `src/app/db.py` builder places every row
exactly once — the root list together with all children lists is a
permutation of the row ids — and the ids reachable from the returned
roots are exactly the input row ids: nothing is duplicated and nothing is
lost.  (The `src/api/db.py` builder loses cycle members, per the
counterexample.) -/
theorem app_build_rows_exactly_once (rows : List Row)
    (hnd : (rows.map Row.id).Nodup) :
    List.Perm (occ (App.build_tree rows) (rows.map Row.id)) (rows.map Row.id) ∧
    (∀ k, Reach (App.build_tree rows) k ↔ k ∈ rows.map Row.id) := by
  have hkeys : keysOf (byId rows) = rows.map Row.id := by
    rw [byId_eq_map rows hnd]
    rw [keysOf, List.map_map]
    rfl
  have hnodupkeys := keysOf_byId_nodup rows
  have htargets : ∀ kr ∈ byId rows, ∀ p,
      appPlace (byId rows)
        (App.detect_loop (byId rows) ((byId rows).length + 1)).in_cycle kr.1 kr.2 =
        some p → p ∈ keysOf (byId rows) :=
    fun kr _ p hp =>
      (containsKey_iff_mem _ _).mp (appPlace_some_parts _ _ _ _ _ hp).2.2.1.2
  have hperm := occ_buildOf
    (appPlace (byId rows)
      (App.detect_loop (byId rows) ((byId rows).length + 1)).in_cycle)
    (byId rows) htargets hnodupkeys
  constructor
  · rw [app_build_eq, ← hkeys]
    exact hperm
  · intro k
    constructor
    · intro hr
      rw [← hkeys]
      rw [app_build_eq] at hr
      exact reach_mem_keys _ (byId rows) htargets hnodupkeys k hr
    · intro hk
      rw [app_build_eq]
      have hk' : k ∈ keysOf (byId rows) := by rw [hkeys]; exact hk
      refine app_reach_climb (byId rows) hnodupkeys (keysOf (byId rows)).length k []
        hk' ?_ (by simp) (by simp)
      exact trivial

/-- Witness for C2 (amended) at a concrete input: a three-row store with
one nested chain and one root. -/
theorem app_build_rows_exactly_once_witness :
    (([⟨"a", "u", "A", none, "todo", none⟩,
       ⟨"b", "u", "B", none, "todo", some "a"⟩,
       ⟨"c", "u", "C", none, "todo", none⟩].map Row.id).Nodup ∧
     "b" ∈ [⟨"a", "u", "A", none, "todo", none⟩,
       ⟨"b", "u", "B", none, "todo", some "a"⟩,
       ⟨"c", "u", "C", none, "todo", none⟩].map Row.id) ∧
    (List.Perm
      (occ (App.build_tree
        [⟨"a", "u", "A", none, "todo", none⟩,
         ⟨"b", "u", "B", none, "todo", some "a"⟩,
         ⟨"c", "u", "C", none, "todo", none⟩])
        ([⟨"a", "u", "A", none, "todo", none⟩,
          ⟨"b", "u", "B", none, "todo", some "a"⟩,
          ⟨"c", "u", "C", none, "todo", none⟩].map Row.id))
      ([⟨"a", "u", "A", none, "todo", none⟩,
        ⟨"b", "u", "B", none, "todo", some "a"⟩,
        ⟨"c", "u", "C", none, "todo", none⟩].map Row.id) ∧
     Reach (App.build_tree
        [⟨"a", "u", "A", none, "todo", none⟩,
         ⟨"b", "u", "B", none, "todo", some "a"⟩,
         ⟨"c", "u", "C", none, "todo", none⟩]) "b") := by
  refine ⟨⟨by decide, by decide⟩, ?_, ?_⟩
  · exact (app_build_rows_exactly_once _ (by decide)).1
  · exact ((app_build_rows_exactly_once _ (by decide)).2 "b").mpr (by decide)

end GoalGetter
